import Mathlib

/-!
Formal model of the dwh-lineage-graph-generator core, shallowly embedded
from the Python source:

* `src/src/lineage/models.py` — the `Node` / `Connection` entity model
  (`Node.__post_init__` validation, `Connection` dataclass).
* `src/src/lineage/graph/missing_nodes.py` — the missing-reference detector
  (`extract_referenced_node_ids`, `extract_existing_node_ids`,
  `find_missing_node_ids`).
* `src/lineage_graph.py` — the `LineageGraph` engine over a `networkx.DiGraph`
  (`_build_graph`, `get_upstream_nodes`, `get_downstream_nodes`,
  `get_direct_connections`, `get_subgraph`, `get_direct_subgraph`,
  `get_all_paths`).

Python sets are modelled as `Finset String`; Python dicts as insertion-ordered
association lists with update-in-place semantics; a `KeyError` at
`self.nodes[node_id]` is modelled as an `Option` returning `none`; a raised
`ValueError` in entity construction as `Except.error`.
-/

namespace Lineage

/-- A raw YAML scalar as seen by the missing-node detector: either a Python
string or some non-string value (opaque, tagged by a number so distinct
non-string values stay distinct, as in Python). -/
inductive YVal where
  | str : String → YVal
  | other : Nat → YVal
deriving DecidableEq, Repr

/-- One entry of the raw `nodes` list loaded from YAML, as consumed by
`missing_nodes.py`.  `notDict` stands for any entry failing
`isinstance(node, dict)` (skipped by every function).  For a dict entry,
`id?` is the value of the `"id"` key (`none` when the key is absent) and
`sel` is its `select_from` value.  A `select_from` that is absent, falsy
(`None`, `""`, `0`, `[]`) or a truthy non-list contributes nothing in every
function of the source module, exactly like an empty list, so all of those
cases are represented by `sel = []`. -/
inductive RawEntry where
  | notDict : Nat → RawEntry
  | record : (id? : Option YVal) → (sel : List YVal) → RawEntry
deriving DecidableEq, Repr

/-- `extract_referenced_node_ids`: the set of all string entries found in any
record's `select_from` list (non-string entries contribute nothing). -/
def extract_referenced_node_ids (nodes_data : List RawEntry) : Finset String :=
  nodes_data.foldl
    (fun acc e =>
      match e with
      | .notDict _ => acc
      | .record _ sel =>
        sel.foldl
          (fun acc2 v =>
            match v with
            | .str s => insert s acc2
            | .other _ => acc2)
          acc)
    ∅

/-- `extract_existing_node_ids`: the set of `"id"` values of all well-formed
(dict, id-carrying) records.  Non-string ids are kept as values, as in
Python, hence a `Finset YVal`. -/
def extract_existing_node_ids (nodes_data : List RawEntry) : Finset YVal :=
  nodes_data.foldl
    (fun acc e =>
      match e with
      | .notDict _ => acc
      | .record none _ => acc
      | .record (some v) _ => insert v acc)
    ∅

/-- `find_missing_node_ids`: referenced-but-not-declared ids, in
first-discovery order.  `referenced_ids - existing_ids` is a Python set
difference between a set of strings and a set of arbitrary values, so a
string survives iff it does not occur (as a string) among the existing ids. -/
def find_missing_node_ids (nodes_data : List RawEntry) : List String :=
  let existing_ids := extract_existing_node_ids nodes_data
  let referenced_ids := extract_referenced_node_ids nodes_data
  let missing_ids : Finset String :=
    referenced_ids.filter (fun r => YVal.str r ∉ existing_ids)
  let result := nodes_data.foldl
    (fun (acc : List String × Finset String) e =>
      match e with
      | .notDict _ => acc
      | .record _ sel =>
        sel.foldl
          (fun acc2 v =>
            match v with
            | .str ref =>
              if ref ∈ missing_ids ∧ ref ∉ acc2.2 then
                (acc2.1 ++ [ref], insert ref acc2.2)
              else acc2
            | .other _ => acc2)
          acc)
    ([], ∅)
  result.1

/-- The flattened stream of string references: records in input order, each
record's `select_from` in order, non-string entries dropped.  (Spec-side
helper used to state the first-discovery-order contract.) -/
def refStream (nodes_data : List RawEntry) : List String :=
  nodes_data.flatMap
    (fun e =>
      match e with
      | .notDict _ => []
      | .record _ sel => sel.filterMap (fun v =>
          match v with
          | .str s => some s
          | .other _ => none))

/-- Keep only the first occurrence of each element, preserving order.
(Spec-side helper: "the first time a missing id is seen, append it; repeats
are skipped".) -/
def firstOccur (l : List String) : List String :=
  (l.foldl (fun acc s => if s ∈ acc then acc else acc ++ [s]) [])

/-- Membership in the inner fold of `extract_referenced_node_ids`. -/
lemma mem_refFold_inner (sel : List YVal) (acc : Finset String) (x : String) :
    x ∈ sel.foldl
      (fun acc2 v =>
        match v with
        | .str s => insert s acc2
        | .other _ => acc2) acc ↔
    x ∈ acc ∨ x ∈ sel.filterMap (fun v =>
      match v with
      | .str s => some s
      | .other _ => none) := by
  induction sel generalizing acc with
  | nil => simp
  | cons v rest ih =>
    cases v with
    | str s =>
      simp only [List.foldl_cons, List.filterMap_cons, ih, Finset.mem_insert,
        List.mem_cons]
      tauto
    | other n =>
      simp only [List.foldl_cons, List.filterMap_cons, ih]

/-- Membership in `extract_referenced_node_ids` is membership in the
reference stream. -/
lemma mem_extract_referenced (nodes_data : List RawEntry) (x : String) :
    x ∈ extract_referenced_node_ids nodes_data ↔ x ∈ refStream nodes_data := by
  suffices h : ∀ (d : List RawEntry) (acc : Finset String),
      x ∈ d.foldl
        (fun acc e =>
          match e with
          | .notDict _ => acc
          | .record _ sel =>
            sel.foldl
              (fun acc2 v =>
                match v with
                | .str s => insert s acc2
                | .other _ => acc2)
              acc) acc ↔ x ∈ acc ∨ x ∈ refStream d by
    have := h nodes_data ∅
    simpa [extract_referenced_node_ids] using this
  intro d
  induction d with
  | nil => simp [refStream]
  | cons e rest ih =>
    intro acc
    cases e with
    | notDict n => simp [refStream, List.foldl_cons, ih]
    | record i sel =>
      simp only [List.foldl_cons, ih, mem_refFold_inner, refStream,
        List.flatMap_cons, List.mem_append]
      constructor
      · rintro (⟨h | h⟩ | h) <;> simp_all [refStream]
      · rintro (h | ⟨h | h⟩) <;> simp_all [refStream]

/-- The single-reference step of the discovery loop in
`find_missing_node_ids`, abstracted over the precomputed missing set. -/
def discoverStep (missing_ids : Finset String)
    (acc2 : List String × Finset String) (ref : String) :
    List String × Finset String :=
  if ref ∈ missing_ids ∧ ref ∉ acc2.2 then
    (acc2.1 ++ [ref], insert ref acc2.2)
  else acc2

/-- The nested discovery loop of `find_missing_node_ids` equals a flat fold
over the reference stream. -/
lemma discovery_loop_eq_stream (missing_ids : Finset String) :
    ∀ (d : List RawEntry) (acc : List String × Finset String),
    d.foldl
      (fun (acc : List String × Finset String) e =>
        match e with
        | .notDict _ => acc
        | .record _ sel =>
          sel.foldl
            (fun acc2 v =>
              match v with
              | .str ref =>
                if ref ∈ missing_ids ∧ ref ∉ acc2.2 then
                  (acc2.1 ++ [ref], insert ref acc2.2)
                else acc2
              | .other _ => acc2)
            acc) acc
    = (refStream d).foldl (discoverStep missing_ids) acc := by
  intro d
  induction d with
  | nil => intro acc; simp [refStream]
  | cons e rest ih =>
    intro acc
    cases e with
    | notDict n => simp [refStream, ih]
    | record i sel =>
      simp only [List.foldl_cons, refStream, List.flatMap_cons, List.foldl_append, ih]
      congr 1
      induction sel generalizing acc with
      | nil => simp
      | cons v vs ihv =>
        cases v with
        | str s => simp [discoverStep, ihv]
        | other n => simp [ihv]

/-- Membership in `firstOccur`. -/
lemma mem_firstOccur (l : List String) (x : String) :
    x ∈ firstOccur l ↔ x ∈ l := by
  suffices h : ∀ (l : List String) (acc : List String),
      x ∈ l.foldl (fun acc s => if s ∈ acc then acc else acc ++ [s]) acc ↔
        x ∈ acc ∨ x ∈ l by
    simpa [firstOccur] using h l []
  intro l
  induction l with
  | nil => simp
  | cons s rest ih =>
    intro acc
    by_cases hs : s ∈ acc
    · simp only [List.foldl_cons, hs, if_pos, ih, List.mem_cons]
      constructor
      · rintro (h | h) <;> tauto
      · rintro (h | h | h) <;> simp_all
    · simp only [List.foldl_cons, hs, if_neg, not_false_iff, ih,
        List.mem_append, List.mem_singleton, List.mem_cons]
      tauto

/-- The flat discovery fold computes `firstOccur` of the filtered stream,
provided every stream element lies in the reference set and the seen set
mirrors the accumulator. -/
lemma discovery_fold_eq_firstOccur (existing : Finset YVal)
    (referenced : Finset String) :
    ∀ (s : List String) (acc : List String) (seen : Finset String),
    (∀ r ∈ s, r ∈ referenced) →
    (∀ r, r ∈ seen ↔ r ∈ acc) →
    (s.foldl (discoverStep (referenced.filter (fun r => YVal.str r ∉ existing)))
        (acc, seen)).1
      = (s.filter (fun r => YVal.str r ∉ existing)).foldl
          (fun a r => if r ∈ a then a else a ++ [r]) acc := by
  intro s
  induction s with
  | nil => intro acc seen _ _; simp
  | cons r rest ih =>
    intro acc seen hall hseen
    have hrref : r ∈ referenced := hall r (by simp)
    by_cases hmem : YVal.str r ∉ existing
    · -- r passes the missing filter
      by_cases hseenr : r ∈ seen
      · have hracc : r ∈ acc := (hseen r).mp hseenr
        simp only [List.foldl_cons, discoverStep, Finset.mem_filter, hrref,
          hmem, hseenr, List.filter_cons, and_true, true_and, not_true,
          and_false, if_neg, not_false_iff]
        rw [if_pos (by simpa using hmem)]
        simp only [List.foldl_cons, hracc, if_pos]
        exact ih acc seen (fun a ha => hall a (by simp [ha])) hseen
      · have hracc : r ∉ acc := fun h => hseenr ((hseen r).mpr h)
        simp only [List.foldl_cons, discoverStep, Finset.mem_filter, hrref,
          hmem, hseenr, List.filter_cons, and_true, true_and, not_false_iff,
          and_self, if_pos]
        rw [if_pos (by simpa using hmem)]
        simp only [List.foldl_cons, hracc, if_neg, not_false_iff]
        exact ih (acc ++ [r]) (insert r seen)
          (fun a ha => hall a (by simp [ha]))
          (by intro a; simp [hseen a, or_comm])
    · -- r is filtered out
      push_neg at hmem
      simp only [List.foldl_cons, discoverStep, Finset.mem_filter,
        List.filter_cons]
      rw [if_neg (by simp [hmem]), if_neg (by simp [hmem])]
      exact ih acc seen (fun a ha => hall a (by simp [ha])) hseen

/-- `find_missing_node_ids` in closed form: the first-occurrence dedup of the
reference stream restricted to ids not declared by any record. -/
lemma find_missing_eq_firstOccur (nodes_data : List RawEntry) :
    find_missing_node_ids nodes_data
      = firstOccur ((refStream nodes_data).filter
          (fun r => YVal.str r ∉ extract_existing_node_ids nodes_data)) := by
  show (let existing_ids := extract_existing_node_ids nodes_data;
    let referenced_ids := extract_referenced_node_ids nodes_data;
    let missing_ids : Finset String :=
      referenced_ids.filter (fun r => YVal.str r ∉ existing_ids);
    let result := nodes_data.foldl
      (fun (acc : List String × Finset String) e =>
        match e with
        | .notDict _ => acc
        | .record _ sel =>
          sel.foldl
            (fun acc2 v =>
              match v with
              | .str ref =>
                if ref ∈ missing_ids ∧ ref ∉ acc2.2 then
                  (acc2.1 ++ [ref], insert ref acc2.2)
                else acc2
              | .other _ => acc2)
            acc)
      ([], ∅);
    result.1) = _
  simp only []
  rw [discovery_loop_eq_stream]
  rw [discovery_fold_eq_firstOccur
    (extract_existing_node_ids nodes_data)
    (extract_referenced_node_ids nodes_data)
    (refStream nodes_data) [] ∅
    (fun r hr => (mem_extract_referenced nodes_data r).mpr hr)
    (by simp)]
  rfl

/-- C3: for every list of raw records, `find_missing_node_ids` returns exactly
the ids referenced in some record's `select_from` list but declared by no
record (self-references excluded, since a self-referencing record declares its
own id), in first-discovery order — records in input order, each record's
`select_from` in order, each missing id kept at its first occurrence only;
and on records `[{id: a, select_from: [b]}, {id: b, select_from: [a, c]}]` the
result is exactly `[c]`. -/
theorem C3_find_missing_node_ids_first_discovery :
    (∀ d : List RawEntry,
      find_missing_node_ids d
        = firstOccur ((refStream d).filter
            (fun r => YVal.str r ∉ extract_existing_node_ids d))
      ∧ ∀ x, x ∈ find_missing_node_ids d ↔
          x ∈ refStream d ∧ YVal.str x ∉ extract_existing_node_ids d)
    ∧ find_missing_node_ids
        [.record (some (.str "a")) [.str "b"],
         .record (some (.str "b")) [.str "a", .str "c"]]
      = ["c"] := by
  refine ⟨fun d => ⟨find_missing_eq_firstOccur d, fun x => ?_⟩, by decide⟩
  rw [find_missing_eq_firstOccur, mem_firstOccur, List.mem_filter]
  simp

/-- Is a raw value a Python string? (`isinstance(item, str)`). -/
def YVal.isStr : YVal → Bool
  | .str _ => true
  | .other _ => false

/-- A validated `Node` (dataclass from `src/src/lineage/models.py` after
`__post_init__` ran).  `data_type`/`data_level` are plain strings here: the
enumerated-literal typing of the source is static only. -/
structure Node where
  id : String
  label : String
  data_type : String
  data_level : String
  select_from : List String
deriving DecidableEq, Repr

/-- A `Connection` (dataclass from `src/src/lineage/models.py`). -/
structure Connection where
  from_id : String
  to_id : String
  connection_type : String
deriving DecidableEq, Repr

/-- `DEFAULT_CONNECTION_TYPE`: first key of `CONNECTION_STYLES` in
`src/styles.py`. -/
def DEFAULT_CONNECTION_TYPE : String := "select_from"

/-- The null/empty → "unknown" normalization applied by `Node.__post_init__`
to `data_type` and `data_level` (`None` is `none` here). -/
def normalizeTag : Option String → String
  | none => "unknown"
  | some "" => "unknown"
  | some s => s

/-- `Node(...)` construction running `Node.__post_init__`
(`src/src/lineage/models.py`, lines 27-44).  A raised `ValueError` is an
`Except.error`.  `id` and `label` are Lean strings, so the
`isinstance(..., str)` failure and the missing-argument `TypeError` are ruled
out at the type level; the empty-string branch is modelled.  `select_from` is
a list of raw values, so the per-element `isinstance(item, str)` check is
modelled. -/
def mkNode (id label : String) (data_type data_level : Option String)
    (select_from : List YVal) : Except String Node :=
  if id = "" then .error "id must be a non-empty string"
  else if label = "" then .error "label must be a non-empty string"
  else if select_from.all YVal.isStr then
    .ok ⟨id, label, normalizeTag data_type, normalizeTag data_level,
      select_from.filterMap (fun v =>
        match v with
        | .str s => some s
        | .other _ => none)⟩
  else .error "select_from must contain only strings"

/-- `Connection(...)` construction.  The dataclass has no `__post_init__`
(`src/src/lineage/models.py`, lines 47-59): no field is validated and
construction never raises. -/
def mkConnection (from_id to_id : String) (connection_type : String) :
    Except String Connection :=
  .ok ⟨from_id, to_id, connection_type⟩

/-- C4 counterexample: constructing a `Connection` with empty `from_id` and
`to_id` succeeds — no validation error is raised, contradicting the claim
that an empty required string field of a Connection raises at
construction. -/
theorem C4_counterexample_connection_not_validated :
    (mkConnection "" "" DEFAULT_CONNECTION_TYPE).isOk = true := rfl

/-- C4 (amended): Node construction raises a validation error exactly when
`id` is empty, `label` is empty, or some `select_from` element is not a
string; a null or empty `data_type`/`data_level` is normalized to
`"unknown"`.  Connection construction performs no validation at all: any
`from_id`/`to_id` (empty included) are accepted as given. -/
theorem C4_entity_construction_validation :
    (∀ f t ct, mkConnection f t ct = .ok ⟨f, t, ct⟩)
    ∧ (∀ i l dt dl sf, (mkNode i l dt dl sf).isOk
        ↔ i ≠ "" ∧ l ≠ "" ∧ ∀ v ∈ sf, v.isStr)
    ∧ (∀ i l dt dl sf nd, mkNode i l dt dl sf = .ok nd →
        nd.data_type = normalizeTag dt ∧ nd.data_level = normalizeTag dl)
    ∧ normalizeTag none = "unknown" ∧ normalizeTag (some "") = "unknown" := by
  refine ⟨fun f t ct => rfl, fun i l dt dl sf => ?_, fun i l dt dl sf nd h => ?_,
    rfl, rfl⟩
  · unfold mkNode
    by_cases hi : i = ""
    · rw [if_pos hi]
      simp [Except.isOk, Except.toBool, hi]
    · by_cases hl : l = ""
      · rw [if_neg hi, if_pos hl]
        simp [Except.isOk, Except.toBool, hl]
      · by_cases hsf : sf.all YVal.isStr = true
        · rw [if_neg hi, if_neg hl, if_pos hsf]
          simp only [Except.isOk]
          exact iff_of_true rfl ⟨hi, hl, List.all_eq_true.mp hsf⟩
        · rw [if_neg hi, if_neg hl, if_neg hsf]
          simp only [Except.isOk]
          refine iff_of_false (by simp [Except.toBool]) (fun hc => hsf ?_)
          exact List.all_eq_true.mpr hc.2.2
  · unfold mkNode at h
    by_cases hi : i = ""
    · rw [if_pos hi] at h
      cases h
    · by_cases hl : l = ""
      · rw [if_neg hi, if_pos hl] at h
        cases h
      · by_cases hsf : sf.all YVal.isStr = true
        · rw [if_neg hi, if_neg hl, if_pos hsf] at h
          cases h
          exact ⟨rfl, rfl⟩
        · rw [if_neg hi, if_neg hl, if_neg hsf] at h
          cases h

/-- C4 witness: the amended theorem at concrete inputs — an empty-id Node is
rejected, a valid Node with null tags gets `"unknown"`, and a Connection
with empty endpoints is accepted. -/
theorem C4_entity_construction_validation_witness :
    (mkConnection "" "" DEFAULT_CONNECTION_TYPE
      = .ok ⟨"", "", DEFAULT_CONNECTION_TYPE⟩)
    ∧ (mkNode "" "Label" none none []).isOk = false
    ∧ Node.data_type ⟨"a", "A", "unknown", "unknown", []⟩ = "unknown" := by
  obtain ⟨hconn, hok, hnorm, hu, _⟩ := C4_entity_construction_validation
  refine ⟨hconn "" "" DEFAULT_CONNECTION_TYPE, ?_, ?_⟩
  · have h : ¬ (mkNode "" "Label" none none []).isOk = true :=
      fun hh => ((hok "" "Label" none none []).mp hh).1 rfl
    exact Bool.eq_false_iff.mpr h
  · exact ((hnorm "a" "A" none none []
      ⟨"a", "A", "unknown", "unknown", []⟩ (by rfl)).1).trans hu

/-! ## The `networkx.DiGraph` model used by `src/lineage_graph.py`

A `DiGraph` is a simple directed graph: vertices in insertion order, each
optionally carrying a `node` attribute, and at most one edge per ordered
pair, carrying a `connection` attribute that `add_edge` overwrites on
re-addition.  Neighbor lists are presented in vertex-insertion order; the
engine only consumes them as sets. -/

structure PyDiGraph where
  verts : List (String × Option Node)
  edges : List ((String × String) × Connection)
deriving DecidableEq, Repr

/-- The vertex ids, in insertion order. -/
def PyDiGraph.vertexIds (g : PyDiGraph) : List String := g.verts.map Prod.fst

/-- The vertex ids as a set. -/
def PyDiGraph.vertexFinset (g : PyDiGraph) : Finset String := g.vertexIds.toFinset

/-- Edge test `(u, v) in G.edges`. -/
def PyDiGraph.hasEdge (g : PyDiGraph) (u v : String) : Bool :=
  g.edges.any (fun e => e.1 = (u, v))

/-- `G.predecessors(v)`: vertices with an edge into `v`. -/
def PyDiGraph.predecessors (g : PyDiGraph) (v : String) : List String :=
  g.vertexIds.filter (fun u => g.hasEdge u v)

/-- `G.successors(u)`: vertices with an edge out of `u`. -/
def PyDiGraph.successors (g : PyDiGraph) (u : String) : List String :=
  g.vertexIds.filter (fun v => g.hasEdge u v)

/-- The `node` attribute of a vertex (`none` when the vertex is absent or was
auto-created by `add_edge` without an attribute). -/
def PyDiGraph.nodeAttr (g : PyDiGraph) (id : String) : Option Node :=
  (g.verts.find? (fun p => p.1 = id)).bind Prod.snd

/-- The `connection` attribute of the edge `(u, v)`. -/
def PyDiGraph.edgeData (g : PyDiGraph) (u v : String) : Option Connection :=
  (g.edges.find? (fun e => e.1 = (u, v))).map Prod.snd

/-- `G.add_node(id, node=n)`: update the attribute in place, or append a new
vertex. -/
def PyDiGraph.addNodeAttr (g : PyDiGraph) (id : String) (n : Node) : PyDiGraph :=
  if id ∈ g.vertexIds then
    ⟨g.verts.map (fun p => if p.1 = id then (id, some n) else p), g.edges⟩
  else ⟨g.verts ++ [(id, some n)], g.edges⟩

/-- The implicit vertex creation `add_edge` performs for an absent
endpoint (no `node` attribute). -/
def PyDiGraph.addVertexIfAbsent (g : PyDiGraph) (id : String) : PyDiGraph :=
  if id ∈ g.vertexIds then g else ⟨g.verts ++ [(id, none)], g.edges⟩

/-- `G.add_edge(u, v, connection=c)`: auto-create missing endpoints, then set
the `(u, v)` edge attribute, overwriting an existing parallel edge (a
`DiGraph` keeps one edge per ordered pair). -/
def PyDiGraph.addEdge (g : PyDiGraph) (u v : String) (c : Connection) : PyDiGraph :=
  let g1 := (g.addVertexIfAbsent u).addVertexIfAbsent v
  if g1.hasEdge u v then
    ⟨g1.verts, g1.edges.map (fun e => if e.1 = (u, v) then ((u, v), c) else e)⟩
  else ⟨g1.verts, g1.edges ++ [((u, v), c)]⟩

/-- `LineageGraph._build_graph` (`src/lineage_graph.py`, lines 29-51). -/
def buildGraph (nodes : List Node) (connections : List Connection) : PyDiGraph :=
  let g := nodes.foldl (fun g n => g.addNodeAttr n.id n) ⟨[], []⟩
  connections.foldl (fun g c => g.addEdge c.from_id c.to_id c) g

/-- Python-dict insertion: update the value in place if the key exists, else
append. -/
def dictInsert (d : List (String × Node)) (k : String) (v : Node) :
    List (String × Node) :=
  if d.any (fun p => p.1 = k) then d.map (fun p => if p.1 = k then (k, v) else p)
  else d ++ [(k, v)]

/-- Python-dict lookup (`none` models a `KeyError`). -/
def dictGet (d : List (String × Node)) (k : String) : Option Node :=
  (d.find? (fun p => p.1 = k)).map Prod.snd

/-- The `LineageGraph` object: the `self.nodes` id→Node dict, the
`self.connections` list, and the built `networkx` graph. -/
structure LineageGraph where
  nodes : List (String × Node)
  connections : List Connection
  graph : PyDiGraph
deriving DecidableEq, Repr

/-- `LineageGraph.__init__` (`src/lineage_graph.py`, lines 18-27):
`self.nodes = {node.id: node for node in nodes}` and
`self.graph = self._build_graph(nodes, connections)`. -/
def mkLineageGraph (nodes : List Node) (connections : List Connection) :
    LineageGraph :=
  ⟨nodes.foldl (fun d n => dictInsert d n.id n) [], connections,
    buildGraph nodes connections⟩

/-- Direction selector shared by the two BFS methods: `predecessors` for the
upstream traversal, `successors` for the downstream one. -/
def PyDiGraph.neighborList (g : PyDiGraph) (fwd : Bool) (v : String) :
    List String :=
  if fwd then g.successors v else g.predecessors v

/-- Neighbor set. -/
def nbrFinset (g : PyDiGraph) (fwd : Bool) (v : String) : Finset String :=
  (g.neighborList fwd v).toFinset

/-- The inner `for` loop of the depth-bounded BFS: scan a neighbor list,
collecting previously unvisited vertices into `visited`, the result
accumulator, and the queue tail (at depth `d`). -/
def visitNeighbors (nbrs : List String) (d : Nat) (visited acc : Finset String)
    (qacc : List (String × Nat)) :
    Finset String × Finset String × List (String × Nat) :=
  match nbrs with
  | [] => (visited, acc, qacc)
  | p :: ps =>
    if p ∈ visited then visitNeighbors ps d visited acc qacc
    else visitNeighbors ps d (insert p visited) (insert p acc) (qacc ++ [(p, d)])

/-- What a neighbor scan does: it adds the whole neighbor set to `visited`,
adds the fresh part to the accumulator, and enqueues exactly the fresh part
(in some duplicate-free order) at depth `d`. -/
lemma visitNeighbors_spec (nbrs : List String) (d : Nat)
    (visited acc : Finset String) (qacc : List (String × Nat)) :
    ∃ Δ : List String,
      visitNeighbors nbrs d visited acc qacc
        = (visited ∪ nbrs.toFinset, acc ∪ (nbrs.toFinset \ visited),
            qacc ++ Δ.map (fun p => (p, d)))
      ∧ Δ.toFinset = nbrs.toFinset \ visited := by
  induction nbrs generalizing visited acc qacc with
  | nil => exact ⟨[], by simp [visitNeighbors], by simp⟩
  | cons p ps ih =>
    by_cases hp : p ∈ visited
    · obtain ⟨Δ, heq, hΔ⟩ := ih visited acc qacc
      have hA : visited ∪ ps.toFinset = visited ∪ (p :: ps).toFinset := by
        ext x
        simp only [List.toFinset_cons, Finset.mem_union, Finset.mem_insert]
        constructor
        · tauto
        · rintro (h | rfl | h)
          · exact Or.inl h
          · exact Or.inl hp
          · exact Or.inr h
      have hB : ps.toFinset \ visited = (p :: ps).toFinset \ visited := by
        ext x
        simp only [List.toFinset_cons, Finset.mem_sdiff, Finset.mem_insert]
        constructor
        · tauto
        · rintro ⟨h | h, hv⟩
          · exact absurd (h ▸ hp) hv
          · exact ⟨h, hv⟩
      refine ⟨Δ, ?_, hB ▸ hΔ⟩
      simp only [visitNeighbors, if_pos hp, heq, hA, hB]
    · obtain ⟨Δ, heq, hΔ⟩ := ih (insert p visited) (insert p acc) (qacc ++ [(p, d)])
      have hA : insert p visited ∪ ps.toFinset = visited ∪ (p :: ps).toFinset := by
        ext x
        simp only [List.toFinset_cons, Finset.mem_union, Finset.mem_insert]
        tauto
      have hB : insert p acc ∪ (ps.toFinset \ insert p visited)
          = acc ∪ ((p :: ps).toFinset \ visited) := by
        ext x
        simp only [List.toFinset_cons, Finset.mem_union, Finset.mem_sdiff,
          Finset.mem_insert]
        constructor
        · rintro (h | ⟨h, hn⟩)
          · rcases h with rfl | h
            · exact Or.inr ⟨Or.inl rfl, hp⟩
            · exact Or.inl h
          · exact Or.inr ⟨Or.inr h, fun hv => hn (Or.inr hv)⟩
        · rintro (h | ⟨h | h, hv⟩)
          · exact Or.inl (Or.inr h)
          · exact Or.inl (Or.inl h)
          · by_cases hxp : x = p
            · exact Or.inl (Or.inl hxp)
            · exact Or.inr ⟨h, fun hc => hxp (by rcases hc with h1 | h1 <;> tauto)⟩
      have hC : (p :: Δ).toFinset = (p :: ps).toFinset \ visited := by
        rw [List.toFinset_cons, hΔ]
        ext x
        simp only [List.toFinset_cons, Finset.mem_insert, Finset.mem_sdiff]
        constructor
        · rintro (rfl | ⟨h, hn⟩)
          · exact ⟨Or.inl rfl, hp⟩
          · exact ⟨Or.inr h, fun hv => hn (Or.inr hv)⟩
        · rintro ⟨h | h, hv⟩
          · exact Or.inl h
          · by_cases hxp : x = p
            · exact Or.inl hxp
            · exact Or.inr ⟨h, fun hc => hxp (by rcases hc with h1 | h1 <;> tauto)⟩
      refine ⟨p :: Δ, ?_, hC⟩
      simp only [visitNeighbors, if_neg hp, heq, hA, hB, List.map_cons,
        List.append_assoc, List.cons_append, List.nil_append]

/-- Every neighbor is a vertex of the graph. -/
lemma neighborList_subset (g : PyDiGraph) (fwd : Bool) (v : String) :
    ∀ p ∈ g.neighborList fwd v, p ∈ g.vertexIds := by
  intro p hp
  unfold PyDiGraph.neighborList PyDiGraph.successors PyDiGraph.predecessors at hp
  split at hp <;> exact (List.mem_filter.mp hp).1

/-- The `while queue:` loop shared by `get_upstream_nodes` and
`get_downstream_nodes` (`src/lineage_graph.py`, lines 77-88 and 114-125):
pop the queue head; if its depth reached `maxDepth`, skip its expansion;
otherwise scan its neighbor list (predecessors when `fwd = false`,
successors when `fwd = true`), record fresh vertices and enqueue them one
level deeper.  Returns the accumulated result set. -/
def bfsLoop (g : PyDiGraph) (fwd : Bool) (maxDepth : Nat) :
    List (String × Nat) → Finset String → Finset String → Finset String
  | [], _, acc => acc
  | (current, depth) :: rest, visited, acc =>
    if depth ≥ maxDepth then bfsLoop g fwd maxDepth rest visited acc
    else
      match h : visitNeighbors (g.neighborList fwd current) (depth + 1) visited acc [] with
      | (visited', acc', newQ) => bfsLoop g fwd maxDepth (rest ++ newQ) visited' acc'
termination_by q visited _ => ((g.vertexFinset \ visited).card, q.length)
decreasing_by
· apply Prod.Lex.right
  simp
· obtain ⟨Δ, heq, hΔ⟩ :=
    visitNeighbors_spec (g.neighborList fwd current) (depth + 1) visited acc []
  rw [heq] at h
  cases h
  rcases Δ with _ | ⟨p, Δ'⟩
  · have hsub : (g.neighborList fwd current).toFinset ⊆ visited := by
      have : ((g.neighborList fwd current).toFinset \ visited) = ∅ := by
        rw [← hΔ]; simp
      exact Finset.sdiff_eq_empty_iff_subset.mp this
    have hv : visited ∪ (g.neighborList fwd current).toFinset = visited :=
      Finset.union_eq_left.mpr hsub
    rw [hv]
    apply Prod.Lex.right
    simp
  · apply Prod.Lex.left
    have hp : p ∈ (g.neighborList fwd current).toFinset \ visited := by
      rw [← hΔ]; simp
    have hpv : p ∈ g.vertexFinset := by
      rw [Finset.mem_sdiff] at hp
      exact List.mem_toFinset.mpr
        (neighborList_subset g fwd current p (List.mem_toFinset.mp hp.1))
    apply Finset.card_lt_card
    rw [Finset.ssubset_def]
    constructor
    · exact Finset.sdiff_subset_sdiff (le_refl _) Finset.subset_union_left
    · intro hc
      have h1 : p ∈ g.vertexFinset \ visited := by
        rw [Finset.mem_sdiff] at hp ⊢
        exact ⟨hpv, hp.2⟩
      have h2 := hc h1
      rw [Finset.mem_sdiff] at h2 hp
      exact h2.2 (Finset.mem_union_right _ hp.1)

/-! ## Reachability closure

`stepN g fwd s k` is the set of vertices reachable from `s` in at most `k`
hops along `fwd`-direction edges (`{s}` expanded `k` times by one neighbor
layer).  The breadth-first loop above computes exactly `stepN … k \ {s}`,
and `networkx`'s `ancestors`/`descendants` are the stabilized closure minus
the source. -/

/-- One expansion layer: a set together with all its neighbors. -/
def stepSet (g : PyDiGraph) (fwd : Bool) (R : Finset String) : Finset String :=
  R ∪ R.biUnion (fun v => nbrFinset g fwd v)

/-- Vertices within `k` hops of `s` (in the `fwd` direction). -/
def stepN (g : PyDiGraph) (fwd : Bool) (s : String) (k : Nat) : Finset String :=
  (stepSet g fwd)^[k] {s}

lemma subset_stepSet (g : PyDiGraph) (fwd : Bool) (R : Finset String) :
    R ⊆ stepSet g fwd R := Finset.subset_union_left

lemma stepSet_mono (g : PyDiGraph) (fwd : Bool) {R S : Finset String}
    (h : R ⊆ S) : stepSet g fwd R ⊆ stepSet g fwd S :=
  Finset.union_subset_union h (Finset.biUnion_subset_biUnion_of_subset_left _ h)

lemma stepN_zero (g : PyDiGraph) (fwd : Bool) (s : String) :
    stepN g fwd s 0 = {s} := rfl

lemma stepN_succ (g : PyDiGraph) (fwd : Bool) (s : String) (k : Nat) :
    stepN g fwd s (k + 1) = stepSet g fwd (stepN g fwd s k) :=
  Function.iterate_succ_apply' _ _ _

lemma mem_stepN_self (g : PyDiGraph) (fwd : Bool) (s : String) (k : Nat) :
    s ∈ stepN g fwd s k := by
  induction k with
  | zero => simp [stepN_zero]
  | succ k ih => exact stepN_succ g fwd s k ▸ subset_stepSet g fwd _ ih

lemma stepN_mono (g : PyDiGraph) (fwd : Bool) (s : String) {k m : Nat}
    (h : k ≤ m) : stepN g fwd s k ⊆ stepN g fwd s m := by
  induction m, h using Nat.le_induction with
  | base => exact subset_rfl
  | succ m _ ih =>
    exact subset_trans ih (stepN_succ g fwd s m ▸ subset_stepSet g fwd _)

lemma stepN_subset_verts (g : PyDiGraph) (fwd : Bool) (s : String) (k : Nat) :
    stepN g fwd s k ⊆ insert s g.vertexFinset := by
  induction k with
  | zero => simp [stepN_zero]
  | succ k ih =>
    rw [stepN_succ]
    refine Finset.union_subset ih (Finset.biUnion_subset.mpr fun v _ => ?_)
    intro x hx
    exact Finset.mem_insert_of_mem
      (List.mem_toFinset.mpr (neighborList_subset g fwd v x (List.mem_toFinset.mp hx)))

lemma stepN_stab (g : PyDiGraph) (fwd : Bool) (s : String) {k : Nat}
    (h : stepN g fwd s (k + 1) = stepN g fwd s k) :
    ∀ m, k ≤ m → stepN g fwd s m = stepN g fwd s k := by
  intro m hm
  induction m, hm using Nat.le_induction with
  | base => rfl
  | succ m _ ih => rw [stepN_succ, ih, ← stepN_succ, h]

lemma stepN_card_grow (g : PyDiGraph) (fwd : Bool) (s : String) :
    ∀ k, (∀ j, j < k → stepN g fwd s (j + 1) ≠ stepN g fwd s j) →
    k + 1 ≤ (stepN g fwd s k).card := by
  intro k
  induction k with
  | zero => intro _; simp [stepN_zero]
  | succ k ih =>
    intro h
    have hk := ih (fun j hj => h j (Nat.lt_succ_of_lt hj))
    have hne := h k (Nat.lt_succ_self k)
    have hss : stepN g fwd s k ⊂ stepN g fwd s (k + 1) :=
      Finset.ssubset_iff_subset_ne.mpr
        ⟨stepN_mono g fwd s (Nat.le_succ k), fun he => hne he.symm⟩
    have := Finset.card_lt_card hss
    omega

/-- Every closure iterate is contained in the iterate at `|verts| + 1`:
the expansion stabilizes within that many layers. -/
lemma stepN_le_closure (g : PyDiGraph) (fwd : Bool) (s : String) (k : Nat) :
    stepN g fwd s k ⊆ stepN g fwd s (g.verts.length + 1) := by
  by_cases hstab : ∃ j, j < g.verts.length + 1
      ∧ stepN g fwd s (j + 1) = stepN g fwd s j
  · obtain ⟨j, hj, heq⟩ := hstab
    rcases le_total k (g.verts.length + 1) with hk | hk
    · exact stepN_mono g fwd s hk
    · have h1 : stepN g fwd s k = stepN g fwd s j :=
        stepN_stab g fwd s heq k (le_trans (Nat.le_of_lt hj) hk)
      rw [h1]
      exact stepN_mono g fwd s (Nat.le_of_lt hj)
  · push_neg at hstab
    exfalso
    have hcard := stepN_card_grow g fwd s (g.verts.length + 1) hstab
    have hle : (stepN g fwd s (g.verts.length + 1)).card
        ≤ g.verts.length + 1 := by
      calc (stepN g fwd s (g.verts.length + 1)).card
          ≤ (insert s g.vertexFinset).card :=
            Finset.card_le_card (stepN_subset_verts g fwd s _)
        _ ≤ g.vertexFinset.card + 1 := Finset.card_insert_le _ _
        _ ≤ g.vertexIds.length + 1 :=
            Nat.add_le_add_right (List.toFinset_card_le _) 1
        _ = g.verts.length + 1 := by simp [PyDiGraph.vertexIds]
    omega

/-- Model of `networkx.ancestors(G, source)`: all vertices with a directed
path to `source`, the source itself excluded (it is never re-discovered by
the underlying reverse breadth-first search). -/
def nxAncestors (g : PyDiGraph) (s : String) : Finset String :=
  stepN g false s (g.verts.length + 1) \ {s}

/-- Model of `networkx.descendants(G, source)`: all vertices with a directed
path from `source`, the source itself excluded. -/
def nxDescendants (g : PyDiGraph) (s : String) : Finset String :=
  stepN g true s (g.verts.length + 1) \ {s}

/-! ## The `LineageGraph` query operations -/

/-- `get_upstream_nodes` (`src/lineage_graph.py`, lines 53-88). -/
def LineageGraph.get_upstream_nodes (lg : LineageGraph) (node_id : String)
    (max_depth : Option Nat) : Finset String :=
  if node_id ∉ lg.graph.vertexIds then ∅
  else match max_depth with
    | none => nxAncestors lg.graph node_id
    | some k => bfsLoop lg.graph false k [(node_id, 0)] {node_id} ∅

/-- `get_downstream_nodes` (`src/lineage_graph.py`, lines 90-125). -/
def LineageGraph.get_downstream_nodes (lg : LineageGraph) (node_id : String)
    (max_depth : Option Nat) : Finset String :=
  if node_id ∉ lg.graph.vertexIds then ∅
  else match max_depth with
    | none => nxDescendants lg.graph node_id
    | some k => bfsLoop lg.graph true k [(node_id, 0)] {node_id} ∅

/-- `get_direct_connections` (`src/lineage_graph.py`, lines 127-142). -/
def LineageGraph.get_direct_connections (lg : LineageGraph) (node_id : String) :
    Finset String :=
  if node_id ∉ lg.graph.vertexIds then ∅
  else (lg.graph.predecessors node_id).toFinset
    ∪ (lg.graph.successors node_id).toFinset

/-- The `direction` literal of the filtering API. -/
inductive FilterDirection where
  | upstream : FilterDirection
  | downstream : FilterDirection
  | both : FilterDirection
deriving DecidableEq, Repr

/-- The common tail of `get_subgraph` and `get_direct_subgraph`
(`src/lineage_graph.py`, lines 174-183 and 203-212): induce the subgraph on
the selected ids, convert the vertices back through the `self.nodes` dict
(`KeyError` → `none`), and collect the induced edges' connections. -/
def LineageGraph.extractSubgraph (lg : LineageGraph) (selected : Finset String) :
    Option (List Node × List Connection) :=
  let subVerts := lg.graph.verts.filter (fun p => p.1 ∈ selected)
  match subVerts.mapM (fun p => dictGet lg.nodes p.1) with
  | none => none
  | some nodesOut =>
    some (nodesOut,
      (lg.graph.edges.filter
        (fun e => e.1.1 ∈ selected ∧ e.1.2 ∈ selected)).map Prod.snd)

/-- `get_subgraph` (`src/lineage_graph.py`, lines 144-183). -/
def LineageGraph.get_subgraph (lg : LineageGraph) (focus_node_ids : List String)
    (direction : FilterDirection) (max_depth : Option Nat) :
    Option (List Node × List Connection) :=
  let selected := focus_node_ids.foldl
    (fun sel node_id =>
      if node_id ∉ lg.graph.vertexIds then sel
      else
        let sel1 :=
          if direction = .upstream ∨ direction = .both then
            sel ∪ lg.get_upstream_nodes node_id max_depth
          else sel
        if direction = .downstream ∨ direction = .both then
          sel1 ∪ lg.get_downstream_nodes node_id max_depth
        else sel1)
    focus_node_ids.toFinset
  lg.extractSubgraph selected

/-- `get_direct_subgraph` (`src/lineage_graph.py`, lines 185-212). -/
def LineageGraph.get_direct_subgraph (lg : LineageGraph)
    (focus_node_ids : List String) : Option (List Node × List Connection) :=
  let selected := focus_node_ids.foldl
    (fun sel node_id =>
      if node_id ∈ lg.graph.vertexIds then
        sel ∪ lg.get_direct_connections node_id
      else sel)
    focus_node_ids.toFinset
  lg.extractSubgraph selected

lemma bfsLoop_nil (g : PyDiGraph) (fwd : Bool) (k : Nat)
    (visited acc : Finset String) : bfsLoop g fwd k [] visited acc = acc := by
  simp [bfsLoop]

lemma bfsLoop_cons_skip (g : PyDiGraph) (fwd : Bool) (k : Nat)
    (current : String) (depth : Nat) (rest : List (String × Nat))
    (visited acc : Finset String) (h : k ≤ depth) :
    bfsLoop g fwd k ((current, depth) :: rest) visited acc
      = bfsLoop g fwd k rest visited acc := by
  rw [bfsLoop]
  rw [if_pos h]

lemma bfsLoop_cons_expand (g : PyDiGraph) (fwd : Bool) (k : Nat)
    (current : String) (depth : Nat) (rest : List (String × Nat))
    (visited acc : Finset String) (h : depth < k) (Δ : List String)
    (heq : visitNeighbors (g.neighborList fwd current) (depth + 1) visited acc []
      = (visited ∪ (g.neighborList fwd current).toFinset,
         acc ∪ ((g.neighborList fwd current).toFinset \ visited),
         Δ.map (fun p => (p, depth + 1)))) :
    bfsLoop g fwd k ((current, depth) :: rest) visited acc
      = bfsLoop g fwd k (rest ++ Δ.map (fun p => (p, depth + 1)))
          (visited ∪ (g.neighborList fwd current).toFinset)
          (acc ∪ ((g.neighborList fwd current).toFinset \ visited)) := by
  rw [bfsLoop]
  rw [if_neg (by omega)]
  rw [heq]

/-- Once every queue entry is at depth ≥ `maxDepth`, the loop drains the
queue without changing the accumulator. -/
lemma bfsLoop_drain (g : PyDiGraph) (fwd : Bool) (k : Nat) :
    ∀ (q : List (String × Nat)) (visited acc : Finset String),
    (∀ e ∈ q, k ≤ e.2) → bfsLoop g fwd k q visited acc = acc := by
  intro q
  induction q with
  | nil => intro visited acc _; exact bfsLoop_nil g fwd k visited acc
  | cons e rest ih =>
    intro visited acc h
    obtain ⟨current, depth⟩ := e
    rw [bfsLoop_cons_skip g fwd k current depth rest visited acc
      (h (current, depth) (List.mem_cons_self _ _))]
    exact ih visited acc (fun e he => h e (List.mem_cons_of_mem _ he))

/-- The neighbor union of a vertex set. -/
def nbrUnion (g : PyDiGraph) (fwd : Bool) (A : Finset String) : Finset String :=
  A.biUnion (fun v => nbrFinset g fwd v)

lemma nbrUnion_empty (g : PyDiGraph) (fwd : Bool) : nbrUnion g fwd ∅ = ∅ :=
  Finset.biUnion_empty

lemma nbrUnion_insert (g : PyDiGraph) (fwd : Bool) (v : String)
    (A : Finset String) :
    nbrUnion g fwd (insert v A) = nbrFinset g fwd v ∪ nbrUnion g fwd A :=
  Finset.biUnion_insert

lemma nbrUnion_mono (g : PyDiGraph) (fwd : Bool) {A B : Finset String}
    (h : A ⊆ B) : nbrUnion g fwd A ⊆ nbrUnion g fwd B :=
  Finset.biUnion_subset_biUnion_of_subset_left _ h

lemma nbrUnion_union (g : PyDiGraph) (fwd : Bool) (A B : Finset String) :
    nbrUnion g fwd (A ∪ B) = nbrUnion g fwd A ∪ nbrUnion g fwd B := by
  ext x
  simp only [nbrUnion, Finset.mem_biUnion, Finset.mem_union]
  constructor
  · rintro ⟨v, hv | hv, hx⟩
    · exact Or.inl ⟨v, hv, hx⟩
    · exact Or.inr ⟨v, hv, hx⟩
  · rintro (⟨v, hv, hx⟩ | ⟨v, hv, hx⟩)
    · exact ⟨v, Or.inl hv, hx⟩
    · exact ⟨v, Or.inr hv, hx⟩

lemma stepSet_eq_nbrUnion (g : PyDiGraph) (fwd : Bool) (R : Finset String) :
    stepSet g fwd R = R ∪ nbrUnion g fwd R := rfl

/-- The level invariant of the breadth-first loop.  At a point where the
queue consists of the unprocessed part `q1` of the current layer (depth
`dep`) followed by the partially built next layer `q2` (depth `dep + 1`),
with `A` the processed part of the current layer, the loop returns exactly
the `k`-hop closure of `s` minus `s`. -/
lemma bfsLoop_level (g : PyDiGraph) (fwd : Bool) (k : Nat) (s : String) :
    ∀ (fuel dep : Nat), dep + fuel = k →
    ∀ (q1 q2 : List String) (A visited acc : Finset String),
    (fuel = 0 → A = ∅) →
    visited = stepN g fwd s dep ∪ nbrUnion g fwd A →
    A ⊆ stepN g fwd s dep →
    q1.toFinset ⊆ stepN g fwd s dep →
    (∃ W : Finset String, stepN g fwd s dep ⊆ A ∪ q1.toFinset ∪ W
      ∧ nbrUnion g fwd W ⊆ stepN g fwd s dep) →
    q2.toFinset = nbrUnion g fwd A \ stepN g fwd s dep →
    acc = visited \ {s} →
    s ∈ visited →
    bfsLoop g fwd k
        (q1.map (fun v => (v, dep)) ++ q2.map (fun v => (v, dep + 1)))
        visited acc
      = stepN g fwd s k \ {s} := by
  intro fuel
  induction fuel with
  | zero =>
    intro dep hdep q1 q2 A visited acc hA0 hvis hAd hq1 hW hq2 hacc hs
    have hdk : dep = k := by omega
    subst hdk
    rw [bfsLoop_drain]
    · rw [hacc, hvis, hA0 rfl, nbrUnion_empty, Finset.union_empty]
    · intro e he
      rcases List.mem_append.mp he with h | h <;>
        obtain ⟨v, _, rfl⟩ := List.mem_map.mp h <;> simp
  | succ fuel ih =>
    intro dep hdep q1 q2 A visited acc hA0 hvis hAd hq1 hW hq2 hacc hs
    induction q1 generalizing q2 A visited acc with
    | nil =>
      -- the current layer is fully processed: move to depth `dep + 1`
      obtain ⟨W, hW1, hW2⟩ := hW
      simp only [List.toFinset_nil, Finset.union_empty] at hW1
      have hsubAW : stepN g fwd s dep ⊆ A ∪ W := by
        intro x hx
        simpa using hW1 hx
      have hvisSucc : visited = stepN g fwd s (dep + 1) := by
        rw [stepN_succ, stepSet_eq_nbrUnion]
        apply Finset.Subset.antisymm
        · rw [hvis]
          apply Finset.union_subset
          · exact Finset.subset_union_left
          · refine subset_trans (nbrUnion_mono g fwd hAd) ?_
            exact Finset.subset_union_right
        · apply Finset.union_subset
          · rw [hvis]; exact Finset.subset_union_left
          · refine subset_trans (nbrUnion_mono g fwd hsubAW) ?_
            rw [nbrUnion_union, hvis]
            apply Finset.union_subset
            · exact Finset.subset_union_right
            · exact subset_trans hW2 Finset.subset_union_left
      have hq2sub : q2.toFinset ⊆ stepN g fwd s (dep + 1) := by
        rw [← hvisSucc, hvis, hq2]
        intro x hx
        exact Finset.mem_union_right _ (Finset.mem_sdiff.mp hx).1
      have happly := ih (dep + 1) (by omega) q2 [] ∅ visited acc
        (fun _ => rfl)
        (by rw [nbrUnion_empty, Finset.union_empty, hvisSucc])
        (Finset.empty_subset _)
        hq2sub
        ⟨stepN g fwd s dep, ?_, ?_⟩
        (by rw [nbrUnion_empty]; simp)
        hacc hs
      · simpa using happly
      · -- stepN (dep+1) ⊆ ∅ ∪ q2 ∪ stepN dep
        rw [stepN_succ, stepSet_eq_nbrUnion]
        apply Finset.union_subset
        · intro x hx
          simp only [Finset.empty_union, Finset.mem_union]
          exact Or.inr hx
        · refine subset_trans (nbrUnion_mono g fwd hsubAW) ?_
          rw [nbrUnion_union]
          apply Finset.union_subset
          · intro x hx
            simp only [Finset.empty_union, Finset.mem_union, hq2,
              Finset.mem_sdiff]
            by_cases hxd : x ∈ stepN g fwd s dep
            · exact Or.inr hxd
            · exact Or.inl ⟨hx, hxd⟩
          · intro x hx
            simp only [Finset.empty_union, Finset.mem_union]
            exact Or.inr (hW2 hx)
      · -- nbrUnion (stepN dep) ⊆ stepN (dep+1)
        rw [stepN_succ, stepSet_eq_nbrUnion]
        exact Finset.subset_union_right
    | cons v rest ihq =>
      obtain ⟨Δ, heq, hΔ⟩ :=
        visitNeighbors_spec (g.neighborList fwd v) (dep + 1) visited acc []
      simp only [List.nil_append] at heq
      have hvq1 : v ∈ stepN g fwd s dep := hq1 (by simp)
      simp only [List.map_cons, List.cons_append]
      rw [bfsLoop_cons_expand g fwd k v dep _ visited acc (by omega) Δ heq]
      have hqshape : (rest.map (fun v => (v, dep)) ++ q2.map (fun v => (v, dep + 1)))
          ++ Δ.map (fun p => (p, dep + 1))
          = rest.map (fun v => (v, dep)) ++ (q2 ++ Δ).map (fun v => (v, dep + 1)) := by
        simp [List.map_append, List.append_assoc]
      rw [hqshape]
      apply ihq (q2 ++ Δ) (insert v A)
      · intro hcon
        exact absurd hcon (by omega)
      · -- visited' = stepN dep ∪ nbrUnion (insert v A)
        rw [nbrUnion_insert, hvis]
        ext x
        simp only [Finset.mem_union, nbrFinset, List.mem_toFinset]
        tauto
      · exact Finset.insert_subset hvq1 hAd
      · intro x hx
        exact hq1 (by simp [List.mem_toFinset.mp hx])
      · obtain ⟨W, hW1, hW2⟩ := hW
        refine ⟨W, ?_, hW2⟩
        intro x hx
        have := hW1 hx
        simp only [Finset.mem_union, Finset.mem_insert, List.toFinset_cons,
          List.mem_toFinset] at this ⊢
        tauto
      · -- (q2 ++ Δ).toFinset = nbrUnion (insert v A) \ stepN dep
        rw [List.toFinset_append, hq2, hΔ, nbrUnion_insert, hvis]
        ext x
        simp only [Finset.mem_union, Finset.mem_sdiff, nbrFinset,
          List.mem_toFinset]
        constructor
        · rintro (⟨h1, h2⟩ | ⟨h1, h2⟩)
          · exact ⟨Or.inr h1, h2⟩
          · push_neg at h2
            exact ⟨Or.inl h1, h2.1⟩
        · rintro ⟨h1 | h1, h2⟩
          · by_cases hx2 : x ∈ nbrUnion g fwd A
            · exact Or.inl ⟨hx2, h2⟩
            · exact Or.inr ⟨h1, by push_neg; exact ⟨h2, hx2⟩⟩
          · exact Or.inl ⟨h1, h2⟩
      · -- acc' = visited' \ {s}
        rw [hacc]
        ext x
        simp only [Finset.mem_union, Finset.mem_sdiff, Finset.mem_singleton]
        constructor
        · rintro (⟨h1, h2⟩ | ⟨h1, h2⟩)
          · exact ⟨Or.inl h1, h2⟩
          · exact ⟨Or.inr h1, fun hx => h2 (hx ▸ hs)⟩
        · rintro ⟨h1 | h1, h2⟩
          · exact Or.inl ⟨h1, h2⟩
          · by_cases hxv : x ∈ visited
            · exact Or.inl ⟨hxv, h2⟩
            · exact Or.inr ⟨h1, hxv⟩
      · exact Finset.mem_union_left _ hs

/-- The depth-bounded BFS computes exactly the `k`-hop closure minus the
start vertex. -/
theorem bfsLoop_eq_stepN (g : PyDiGraph) (fwd : Bool) (k : Nat) (s : String) :
    bfsLoop g fwd k [(s, 0)] {s} ∅ = stepN g fwd s k \ {s} := by
  have h := bfsLoop_level g fwd k s k 0 (by omega) [s] [] ∅ {s} ∅
    (fun _ => rfl)
    (by simp [stepN_zero, nbrUnion_empty])
    (Finset.empty_subset _)
    (by simp [stepN_zero])
    ⟨∅, by simp [stepN_zero], by simp [nbrUnion_empty]⟩
    (by simp [nbrUnion_empty])
    (by simp)
    (by simp)
  simpa using h

/-- Closed form of `get_upstream_nodes` with a depth bound. -/
lemma get_upstream_some (lg : LineageGraph) (n : String) (k : Nat) :
    lg.get_upstream_nodes n (some k)
      = if n ∈ lg.graph.vertexIds then stepN lg.graph false n k \ {n} else ∅ := by
  unfold LineageGraph.get_upstream_nodes
  by_cases h : n ∈ lg.graph.vertexIds
  · rw [if_neg (by simp [h]), if_pos h]
    exact bfsLoop_eq_stepN lg.graph false k n
  · rw [if_pos (by simp [h]), if_neg h]

/-- Closed form of `get_downstream_nodes` with a depth bound. -/
lemma get_downstream_some (lg : LineageGraph) (n : String) (k : Nat) :
    lg.get_downstream_nodes n (some k)
      = if n ∈ lg.graph.vertexIds then stepN lg.graph true n k \ {n} else ∅ := by
  unfold LineageGraph.get_downstream_nodes
  by_cases h : n ∈ lg.graph.vertexIds
  · rw [if_neg (by simp [h]), if_pos h]
    exact bfsLoop_eq_stepN lg.graph true k n
  · rw [if_pos (by simp [h]), if_neg h]

/-- Closed form of `get_upstream_nodes` without a depth bound. -/
lemma get_upstream_none (lg : LineageGraph) (n : String) :
    lg.get_upstream_nodes n none
      = if n ∈ lg.graph.vertexIds then nxAncestors lg.graph n else ∅ := by
  unfold LineageGraph.get_upstream_nodes
  by_cases h : n ∈ lg.graph.vertexIds
  · rw [if_neg (by simp [h]), if_pos h]
  · rw [if_pos (by simp [h]), if_neg h]

/-- Closed form of `get_downstream_nodes` without a depth bound. -/
lemma get_downstream_none (lg : LineageGraph) (n : String) :
    lg.get_downstream_nodes n none
      = if n ∈ lg.graph.vertexIds then nxDescendants lg.graph n else ∅ := by
  unfold LineageGraph.get_downstream_nodes
  by_cases h : n ∈ lg.graph.vertexIds
  · rw [if_neg (by simp [h]), if_pos h]
  · rw [if_pos (by simp [h]), if_neg h]

/-- C7: for every graph built from node and connection lists, every id `n`
and every depth `k ≥ 0`, the depth-`k` upstream set is contained in the
depth-`(k+1)` upstream set, which is contained in the unlimited-depth
upstream set; and likewise downstream. -/
theorem C7_bounded_traversal_monotone (ns : List Node) (cs : List Connection)
    (n : String) (k : Nat) :
    ((mkLineageGraph ns cs).get_upstream_nodes n (some k)
        ⊆ (mkLineageGraph ns cs).get_upstream_nodes n (some (k + 1))
      ∧ (mkLineageGraph ns cs).get_upstream_nodes n (some k)
        ⊆ (mkLineageGraph ns cs).get_upstream_nodes n none)
    ∧ ((mkLineageGraph ns cs).get_downstream_nodes n (some k)
        ⊆ (mkLineageGraph ns cs).get_downstream_nodes n (some (k + 1))
      ∧ (mkLineageGraph ns cs).get_downstream_nodes n (some k)
        ⊆ (mkLineageGraph ns cs).get_downstream_nodes n none) := by
  rw [get_upstream_some, get_upstream_some, get_upstream_none,
    get_downstream_some, get_downstream_some, get_downstream_none]
  by_cases h : n ∈ (mkLineageGraph ns cs).graph.vertexIds
  · simp only [if_pos h]
    unfold nxAncestors nxDescendants
    refine ⟨⟨?_, ?_⟩, ?_, ?_⟩
    · exact Finset.sdiff_subset_sdiff
        (stepN_mono _ false n (Nat.le_succ k)) subset_rfl
    · exact Finset.sdiff_subset_sdiff
        (stepN_le_closure _ false n k) subset_rfl
    · exact Finset.sdiff_subset_sdiff
        (stepN_mono _ true n (Nat.le_succ k)) subset_rfl
    · exact Finset.sdiff_subset_sdiff
        (stepN_le_closure _ true n k) subset_rfl
  · simp only [if_neg h]
    exact ⟨⟨subset_rfl, subset_rfl⟩, subset_rfl, subset_rfl⟩

/-- C8: a node present in the graph is never a member of its own upstream or
downstream set, for any depth bound (unlimited included), cycles and
self-loops notwithstanding: the traversal marks the start vertex visited
before expanding, and the closure-based unlimited queries subtract it. -/
theorem C8_no_self_inclusion (ns : List Node) (cs : List Connection)
    (n : String) (md : Option Nat)
    (h : n ∈ (mkLineageGraph ns cs).graph.vertexIds) :
    n ∉ (mkLineageGraph ns cs).get_upstream_nodes n md
    ∧ n ∉ (mkLineageGraph ns cs).get_downstream_nodes n md := by
  cases md with
  | none =>
    rw [get_upstream_none, get_downstream_none, if_pos h, if_pos h]
    unfold nxAncestors nxDescendants
    constructor <;> · intro hc; exact (Finset.mem_sdiff.mp hc).2 (by simp)
  | some k =>
    rw [get_upstream_some, get_downstream_some, if_pos h, if_pos h]
    constructor <;> · intro hc; exact (Finset.mem_sdiff.mp hc).2 (by simp)

/-- C8 witness: on the two-cycle `a → b → a` with a self-loop `c → c`,
node `a` (on the cycle) and node `c` (with the self-loop) are in the graph
and absent from their own upstream/downstream sets at depth 3 and
unlimited. -/
theorem C8_no_self_inclusion_witness :
    ("a" ∈ (mkLineageGraph
        [⟨"a", "A", "unknown", "unknown", []⟩, ⟨"b", "B", "unknown", "unknown", []⟩,
         ⟨"c", "C", "unknown", "unknown", []⟩]
        [⟨"a", "b", "select_from"⟩, ⟨"b", "a", "select_from"⟩,
         ⟨"c", "c", "select_from"⟩]).graph.vertexIds)
    ∧ ("a" ∉ (mkLineageGraph
        [⟨"a", "A", "unknown", "unknown", []⟩, ⟨"b", "B", "unknown", "unknown", []⟩,
         ⟨"c", "C", "unknown", "unknown", []⟩]
        [⟨"a", "b", "select_from"⟩, ⟨"b", "a", "select_from"⟩,
         ⟨"c", "c", "select_from"⟩]).get_upstream_nodes "a" (some 3))
    ∧ ("c" ∉ (mkLineageGraph
        [⟨"a", "A", "unknown", "unknown", []⟩, ⟨"b", "B", "unknown", "unknown", []⟩,
         ⟨"c", "C", "unknown", "unknown", []⟩]
        [⟨"a", "b", "select_from"⟩, ⟨"b", "a", "select_from"⟩,
         ⟨"c", "c", "select_from"⟩]).get_downstream_nodes "c" none) :=
  ⟨by decide,
   (C8_no_self_inclusion _ _ "a" (some 3) (by decide)).1,
   (C8_no_self_inclusion _ _ "c" none (by decide)).2⟩

lemma stepN_one (g : PyDiGraph) (fwd : Bool) (s : String) :
    stepN g fwd s 1 = {s} ∪ nbrFinset g fwd s := by
  rw [show (1 : Nat) = 0 + 1 from rfl, stepN_succ, stepN_zero,
    stepSet_eq_nbrUnion]
  congr 1
  exact Finset.singleton_biUnion

lemma nbrFinset_false (g : PyDiGraph) (v : String) :
    nbrFinset g false v = (g.predecessors v).toFinset := rfl

lemma nbrFinset_true (g : PyDiGraph) (v : String) :
    nbrFinset g true v = (g.successors v).toFinset := rfl

/-- C5 counterexample: on the single-node graph with the self-loop `a → a`,
`get_direct_connections "a" = {"a"}` (predecessors and successors both
contain `a`), while both depth-1 traversals are empty (the start vertex is
pre-visited and never re-collected), so the claimed equality fails. -/
theorem C5_counterexample_self_loop :
    (mkLineageGraph [⟨"a", "A", "unknown", "unknown", []⟩]
        [⟨"a", "a", "select_from"⟩]).get_direct_connections "a"
      ≠ (mkLineageGraph [⟨"a", "A", "unknown", "unknown", []⟩]
          [⟨"a", "a", "select_from"⟩]).get_upstream_nodes "a" (some 1)
        ∪ (mkLineageGraph [⟨"a", "A", "unknown", "unknown", []⟩]
            [⟨"a", "a", "select_from"⟩]).get_downstream_nodes "a" (some 1) := by
  rw [get_upstream_some, get_downstream_some]
  decide

/-- C5 (amended): for every graph and node id `n` carrying no self-loop
edge (in particular for every id absent from the graph),
`get_direct_connections n` equals the union of the depth-1 upstream and
downstream sets.  With a self-loop on `n` the left side additionally
contains `n` itself while the right side never does. -/
theorem C5_direct_connections_eq_depth_one (ns : List Node)
    (cs : List Connection) (n : String)
    (h : (mkLineageGraph ns cs).graph.hasEdge n n = false) :
    (mkLineageGraph ns cs).get_direct_connections n
      = (mkLineageGraph ns cs).get_upstream_nodes n (some 1)
        ∪ (mkLineageGraph ns cs).get_downstream_nodes n (some 1) := by
  rw [get_upstream_some, get_downstream_some]
  unfold LineageGraph.get_direct_connections
  by_cases hm : n ∈ (mkLineageGraph ns cs).graph.vertexIds
  · rw [if_neg (by simp [hm]), if_pos hm, if_pos hm, stepN_one, stepN_one,
      nbrFinset_false, nbrFinset_true]
    have hnp : n ∉ (mkLineageGraph ns cs).graph.predecessors n := by
      intro hc
      unfold PyDiGraph.predecessors at hc
      rw [List.mem_filter, h] at hc
      exact absurd hc.2 (by simp)
    have hns : n ∉ (mkLineageGraph ns cs).graph.successors n := by
      intro hc
      unfold PyDiGraph.successors at hc
      rw [List.mem_filter, h] at hc
      exact absurd hc.2 (by simp)
    ext x
    simp only [Finset.mem_union, Finset.mem_sdiff, Finset.mem_singleton,
      List.mem_toFinset]
    constructor
    · rintro (hx | hx)
      · exact Or.inl ⟨Or.inr hx, fun he => hnp (he ▸ hx)⟩
      · exact Or.inr ⟨Or.inr hx, fun he => hns (he ▸ hx)⟩
    · rintro (⟨hx | hx, hne⟩ | ⟨hx | hx, hne⟩)
      · exact absurd hx hne
      · exact Or.inl hx
      · exact absurd hx hne
      · exact Or.inr hx
  · rw [if_pos (by simp [hm]), if_neg hm, if_neg hm, Finset.union_empty]

/-- C5 witness: on the chain `a → b`, node `b` has no self-loop and its
direct-connection set equals the union of its depth-1 traversals. -/
theorem C5_direct_connections_eq_depth_one_witness :
    ((mkLineageGraph
        [⟨"a", "A", "unknown", "unknown", []⟩, ⟨"b", "B", "unknown", "unknown", []⟩]
        [⟨"a", "b", "select_from"⟩]).graph.hasEdge "b" "b" = false)
    ∧ (mkLineageGraph
        [⟨"a", "A", "unknown", "unknown", []⟩, ⟨"b", "B", "unknown", "unknown", []⟩]
        [⟨"a", "b", "select_from"⟩]).get_direct_connections "b"
      = (mkLineageGraph
          [⟨"a", "A", "unknown", "unknown", []⟩, ⟨"b", "B", "unknown", "unknown", []⟩]
          [⟨"a", "b", "select_from"⟩]).get_upstream_nodes "b" (some 1)
        ∪ (mkLineageGraph
            [⟨"a", "A", "unknown", "unknown", []⟩, ⟨"b", "B", "unknown", "unknown", []⟩]
            [⟨"a", "b", "select_from"⟩]).get_downstream_nodes "b" (some 1) :=
  ⟨by decide, C5_direct_connections_eq_depth_one _ _ "b" (by decide)⟩

/-- One focus-node expansion step: when the focus id is already selected,
adding its direct connections is the same as adding its two depth-1
traversal sets (the only difference, the id itself on a self-loop, is
already in the selection). -/
lemma direct_step_eq (lg : LineageGraph) (f : String) (acc : Finset String)
    (hacc : f ∈ acc) :
    acc ∪ lg.get_direct_connections f
      = (acc ∪ lg.get_upstream_nodes f (some 1))
        ∪ lg.get_downstream_nodes f (some 1) := by
  rw [get_upstream_some, get_downstream_some]
  unfold LineageGraph.get_direct_connections
  by_cases hm : f ∈ lg.graph.vertexIds
  · rw [if_neg (by simp [hm]), if_pos hm, if_pos hm, stepN_one, stepN_one,
      nbrFinset_false, nbrFinset_true]
    ext x
    simp only [Finset.mem_union, Finset.mem_sdiff, Finset.mem_singleton,
      List.mem_toFinset]
    constructor
    · rintro (hx | hx | hx)
      · exact Or.inl (Or.inl hx)
      · by_cases hxf : x = f
        · exact Or.inl (Or.inl (hxf ▸ hacc))
        · exact Or.inl (Or.inr ⟨Or.inr hx, hxf⟩)
      · by_cases hxf : x = f
        · exact Or.inl (Or.inl (hxf ▸ hacc))
        · exact Or.inr ⟨Or.inr hx, hxf⟩
    · rintro ((hx | ⟨hx | hx, hne⟩) | ⟨hx | hx, hne⟩)
      · exact Or.inl hx
      · exact absurd hx hne
      · exact Or.inr (Or.inl hx)
      · exact absurd hx hne
      · exact Or.inr (Or.inr hx)
  · rw [if_pos (by simp [hm]), if_neg hm, if_neg hm]
    simp

/-- The selected-id folds of `get_direct_subgraph` and of
`get_subgraph (direction := both, max_depth := 1)` agree whenever every
remaining focus id is already in the accumulator (as it is at the top,
where the accumulator starts as the focus set itself). -/
lemma sel_fold_eq (lg : LineageGraph) :
    ∀ (fs : List String) (acc : Finset String), (∀ f ∈ fs, f ∈ acc) →
    fs.foldl
      (fun sel node_id =>
        if node_id ∈ lg.graph.vertexIds then
          sel ∪ lg.get_direct_connections node_id
        else sel) acc
    = fs.foldl
      (fun sel node_id =>
        if node_id ∉ lg.graph.vertexIds then sel
        else
          let sel1 :=
            if FilterDirection.both = FilterDirection.upstream
                ∨ FilterDirection.both = FilterDirection.both then
              sel ∪ lg.get_upstream_nodes node_id (some 1)
            else sel
          if FilterDirection.both = FilterDirection.downstream
              ∨ FilterDirection.both = FilterDirection.both then
            sel1 ∪ lg.get_downstream_nodes node_id (some 1)
          else sel1) acc := by
  intro fs
  induction fs with
  | nil => intro acc _; rfl
  | cons f rest ih =>
    intro acc hall
    simp only [List.foldl_cons]
    by_cases hm : f ∈ lg.graph.vertexIds
    · rw [if_pos hm, if_neg (by simp [hm])]
      simp only [or_true, if_pos]
      rw [← direct_step_eq lg f acc (hall f (by simp))]
      exact ih _ (fun x hx =>
        Finset.mem_union_left _ (hall x (List.mem_cons_of_mem _ hx)))
    · rw [if_neg hm, if_pos (by simp [hm])]
      exact ih _ (fun x hx => hall x (List.mem_cons_of_mem _ hx))

/-- C6: for every graph and focus list `F`, the node list returned by
`get_direct_subgraph F` equals the node list returned by
`get_subgraph F (direction := both, max_depth := 1)` (hence so do the node
sets): the two selected-id sets agree because a focus node excluded from its
own depth-1 traversals is already selected as a focus id. -/
theorem C6_direct_subgraph_eq_subgraph_depth_one (ns : List Node)
    (cs : List Connection) (F : List String) :
    ((mkLineageGraph ns cs).get_direct_subgraph F).map Prod.fst
      = ((mkLineageGraph ns cs).get_subgraph F .both (some 1)).map Prod.fst := by
  unfold LineageGraph.get_direct_subgraph LineageGraph.get_subgraph
  simp only []
  rw [sel_fold_eq (mkLineageGraph ns cs) F F.toFinset
    (fun f hf => List.mem_toFinset.mpr hf)]
  simp

/-- Lookup after an in-place update of every entry keyed `k` in an
association list. -/
lemma find_map_update {κ α : Type} [DecidableEq κ] (d : List (κ × α))
    (k id : κ) (v : α) :
    (d.map (fun p => if p.1 = k then (k, v) else p)).find?
        (fun p => p.1 = id)
      = if id = k then (if d.any (fun p => p.1 = k) then some (k, v) else none)
        else d.find? (fun p => p.1 = id) := by
  induction d with
  | nil => by_cases h : id = k <;> simp [h]
  | cons p rest ih =>
    by_cases hik : id = k
    · subst hik
      by_cases hpk : p.1 = id
      · simp [hpk]
      · simp [hpk, ih]
        rw [show decide (p.1 = id) = false from by simp [hpk], Bool.false_or]
    · by_cases hpk : p.1 = k
      · have hpi : ¬ p.1 = id := fun h => hik (h.symm.trans hpk)
        have hki : ¬ k = id := fun h => hik h.symm
        simp [hpk, hik, hpi, hki, ih]
      · by_cases hpi : p.1 = id
        · simp [hpk, hpi, hik]
        · simp [hpk, hpi, hik, ih]

lemma find?_append_some {α : Type} (l₁ l₂ : List α) (p : α → Bool) {x : α}
    (h : l₁.find? p = some x) : (l₁ ++ l₂).find? p = some x := by
  induction l₁ with
  | nil => cases h
  | cons a t ih =>
    rw [List.cons_append]
    cases ha : p a with
    | true => rw [List.find?_cons_of_pos _ ha]; rwa [List.find?_cons_of_pos _ ha] at h
    | false => rw [List.find?_cons_of_neg _ (by simp [ha])]
               rw [List.find?_cons_of_neg _ (by simp [ha])] at h
               exact ih h

lemma find?_append_none {α : Type} (l₁ l₂ : List α) (p : α → Bool)
    (h : l₁.find? p = none) : (l₁ ++ l₂).find? p = l₂.find? p := by
  induction l₁ with
  | nil => rfl
  | cons a t ih =>
    rw [List.cons_append]
    cases ha : p a with
    | true => rw [List.find?_cons_of_pos _ ha] at h; cases h
    | false => rw [List.find?_cons_of_neg _ (by simp [ha])]
               rw [List.find?_cons_of_neg _ (by simp [ha])] at h
               exact ih h

lemma getLast?_cons_or {α : Type} (a : α) (l : List α) :
    (a :: l).getLast? = l.getLast?.or (some a) := by
  induction l generalizing a with
  | nil => simp
  | cons b t ih =>
    rw [List.getLast?_cons_cons, ih b]
    cases h : t.getLast? with
    | some x => simp
    | none => simp

/-- Python-dict update semantics of `dictInsert`. -/
lemma dictGet_dictInsert (d : List (String × Node)) (k : String) (v : Node)
    (id : String) :
    dictGet (dictInsert d k v) id = if id = k then some v else dictGet d id := by
  unfold dictGet dictInsert
  by_cases hk : d.any (fun p => p.1 = k)
  · rw [if_pos hk, find_map_update]
    by_cases hik : id = k <;> simp [hik, hk]
  · rw [if_neg hk]
    by_cases hik : id = k
    · subst hik
      have hnone : d.find? (fun p => decide (p.1 = id)) = none := by
        rw [List.find?_eq_none]
        intro x hx
        simp only [decide_eq_true_eq]
        exact fun hxe => hk (List.any_eq_true.mpr ⟨x, hx, by simp [hxe]⟩)
      rw [find?_append_none _ _ _ hnone, if_pos rfl]
      simp
    · rw [if_neg hik]
      cases hfd : d.find? (fun p => decide (p.1 = id)) with
      | some x =>
        rw [find?_append_some _ _ _ hfd]
      | none =>
        rw [find?_append_none _ _ _ hfd]
        simp [hfd, show ¬(k = id) from fun h => hik h.symm]

/-- The `self.nodes` dict maps each id to the last `Node` in the input list
with that id (Python dict-comprehension semantics). -/
lemma foldl_dictInsert_get (ns : List Node) (id : String) :
    ∀ d0, dictGet (ns.foldl (fun d n => dictInsert d n.id n) d0) id
      = ((ns.filter (fun n => n.id = id)).getLast?).or (dictGet d0 id) := by
  induction ns with
  | nil => intro d0; simp
  | cons n rest ih =>
    intro d0
    rw [List.foldl_cons, ih, dictGet_dictInsert]
    by_cases hc : n.id = id
    · rw [if_pos hc.symm, List.filter_cons_of_pos (by simp [hc]),
        getLast?_cons_or, Option.or_assoc, Option.or_some]
    · rw [if_neg (fun h => hc h.symm), List.filter_cons_of_neg (by simp [hc])]

/-- `add_node` semantics on the vertex attribute. -/
lemma nodeAttr_addNodeAttr (g : PyDiGraph) (k : String) (v : Node)
    (id : String) :
    (g.addNodeAttr k v).nodeAttr id = if id = k then some v else g.nodeAttr id := by
  unfold PyDiGraph.addNodeAttr PyDiGraph.nodeAttr
  by_cases hk : k ∈ g.vertexIds
  · rw [if_pos hk]
    simp only []
    rw [find_map_update]
    have hany : g.verts.any (fun p => p.1 = k) := by
      obtain ⟨x, hx, hxk⟩ := List.mem_map.mp hk
      exact List.any_eq_true.mpr ⟨x, hx, by simp [hxk]⟩
    by_cases hik : id = k <;> simp [hik, hany]
  · rw [if_neg hk]
    simp only []
    by_cases hik : id = k
    · have hnone : g.verts.find? (fun p => decide (p.1 = id)) = none := by
        rw [List.find?_eq_none]
        intro x hx
        simp only [decide_eq_true_eq]
        intro hxe
        apply hk
        unfold PyDiGraph.vertexIds
        rw [← hik, ← hxe]
        exact List.mem_map.mpr ⟨x, hx, rfl⟩
      rw [find?_append_none _ _ _ hnone, if_pos hik]
      rw [List.find?_cons_of_pos _ (by simp [hik.symm])]
      rfl
    · rw [if_neg hik]
      cases hfd : g.verts.find? (fun p => decide (p.1 = id)) with
      | some x =>
        rw [find?_append_some _ _ _ hfd]
      | none =>
        rw [find?_append_none _ _ _ hfd]
        rw [List.find?_cons_of_neg _ (by
          simp only [decide_eq_true_eq]
          exact fun h => hik h.symm)]
        simp [hfd]

/-- Implicit vertex creation never changes a `node` attribute (new vertices
get none). -/
lemma nodeAttr_addVertexIfAbsent (g : PyDiGraph) (id x : String) :
    (g.addVertexIfAbsent id).nodeAttr x = g.nodeAttr x := by
  unfold PyDiGraph.addVertexIfAbsent PyDiGraph.nodeAttr
  by_cases h : id ∈ g.vertexIds
  · rw [if_pos h]
  · rw [if_neg h]
    simp only []
    cases hf : g.verts.find? (fun p => decide (p.1 = x)) with
    | some p => rw [find?_append_some _ _ _ hf]
    | none =>
      rw [find?_append_none _ _ _ hf]
      by_cases hx : id = x <;> simp [hx]

/-- `add_edge` never changes a `node` attribute. -/
lemma nodeAttr_addEdge (g : PyDiGraph) (u v : String) (c : Connection)
    (x : String) : (g.addEdge u v c).nodeAttr x = g.nodeAttr x := by
  unfold PyDiGraph.addEdge
  simp only []
  have hbase : ((g.addVertexIfAbsent u).addVertexIfAbsent v).nodeAttr x
      = g.nodeAttr x := by
    rw [nodeAttr_addVertexIfAbsent, nodeAttr_addVertexIfAbsent]
  split
  · exact hbase
  · exact hbase

/-- The edge-insertion phase of `_build_graph` leaves all node attributes
unchanged. -/
lemma nodeAttr_edgesFold (cs : List Connection) (x : String) :
    ∀ g : PyDiGraph,
    (cs.foldl (fun g c => g.addEdge c.from_id c.to_id c) g).nodeAttr x
      = g.nodeAttr x := by
  induction cs with
  | nil => intro g; rfl
  | cons c rest ih =>
    intro g
    rw [List.foldl_cons, ih, nodeAttr_addEdge]

/-- The node-insertion phase of `_build_graph` stores, per id, the last node
of the input list with that id (last write wins). -/
lemma nodeAttr_nodesFold (ns : List Node) (id : String) :
    ∀ g0 : PyDiGraph,
    (ns.foldl (fun g n => g.addNodeAttr n.id n) g0).nodeAttr id
      = ((ns.filter (fun n => n.id = id)).getLast?).or (g0.nodeAttr id) := by
  induction ns with
  | nil => intro g0; simp
  | cons n rest ih =>
    intro g0
    rw [List.foldl_cons, ih, nodeAttr_addNodeAttr]
    by_cases hc : n.id = id
    · rw [if_pos hc.symm, List.filter_cons_of_pos (by simp [hc]),
        getLast?_cons_or, Option.or_assoc, Option.or_some]
    · rw [if_neg (fun h => hc h.symm), List.filter_cons_of_neg (by simp [hc])]

/-- C10: duplicate node ids are tolerated silently; construction is total and
the later node wins in both the `self.nodes` dict and the graph's vertex
attribute; concretely, with two nodes both named `a`, lookups return the
second one. -/
theorem C10_duplicate_node_ids_last_write_wins (ns : List Node)
    (cs : List Connection) (id : String) :
    (dictGet (mkLineageGraph ns cs).nodes id
        = (ns.filter (fun n => n.id = id)).getLast?
      ∧ (mkLineageGraph ns cs).graph.nodeAttr id
        = (ns.filter (fun n => n.id = id)).getLast?)
    ∧ dictGet (mkLineageGraph
        [⟨"a", "first", "unknown", "unknown", []⟩,
         ⟨"a", "second", "unknown", "unknown", []⟩] []).nodes "a"
      = some ⟨"a", "second", "unknown", "unknown", []⟩ := by
  refine ⟨⟨?_, ?_⟩, by decide⟩
  · show dictGet (ns.foldl (fun d n => dictInsert d n.id n) []) id = _
    rw [foldl_dictInsert_get]
    simp [dictGet]
  · show (buildGraph ns cs).nodeAttr id = _
    unfold buildGraph
    simp only []
    rw [nodeAttr_edgesFold, nodeAttr_nodesFold]
    simp [PyDiGraph.nodeAttr]

lemma edges_addVertexIfAbsent (g : PyDiGraph) (id : String) :
    (g.addVertexIfAbsent id).edges = g.edges := by
  unfold PyDiGraph.addVertexIfAbsent
  split <;> rfl

lemma edges_addNodeAttr (g : PyDiGraph) (k : String) (v : Node) :
    (g.addNodeAttr k v).edges = g.edges := by
  unfold PyDiGraph.addNodeAttr
  split <;> rfl

lemma edges_nodesFold (ns : List Node) :
    ∀ g0 : PyDiGraph,
    (ns.foldl (fun g n => g.addNodeAttr n.id n) g0).edges = g0.edges := by
  induction ns with
  | nil => intro g0; rfl
  | cons n rest ih =>
    intro g0
    rw [List.foldl_cons, ih, edges_addNodeAttr]

/-- `add_edge` overwrites the connection attribute of an existing ordered
pair and appends a new edge otherwise: afterwards, the `(x, y)` edge datum
is `c` exactly at `(u, v)` and unchanged elsewhere. -/
lemma edgeData_addEdge (g : PyDiGraph) (u v : String) (c : Connection)
    (x y : String) :
    (g.addEdge u v c).edgeData x y
      = if (x, y) = (u, v) then some c else g.edgeData x y := by
  unfold PyDiGraph.addEdge
  simp only []
  have hedges : ((g.addVertexIfAbsent u).addVertexIfAbsent v).edges = g.edges := by
    rw [edges_addVertexIfAbsent, edges_addVertexIfAbsent]
  have hhas : ((g.addVertexIfAbsent u).addVertexIfAbsent v).hasEdge u v
      = g.hasEdge u v := by
    unfold PyDiGraph.hasEdge
    rw [hedges]
  by_cases h : g.hasEdge u v
  · rw [if_pos (by rw [hhas]; exact h)]
    unfold PyDiGraph.edgeData
    simp only [hedges]
    rw [find_map_update]
    unfold PyDiGraph.hasEdge at h
    by_cases hxy : (x, y) = (u, v)
    · rw [if_pos hxy, if_pos hxy, if_pos h]
      rfl
    · rw [if_neg hxy, if_neg hxy]
  · rw [if_neg (by rw [hhas]; exact h)]
    unfold PyDiGraph.edgeData
    simp only [hedges]
    by_cases hxy : (x, y) = (u, v)
    · have hnone : g.edges.find? (fun e => decide (e.1 = (x, y))) = none := by
        rw [List.find?_eq_none]
        intro e he
        simp only [decide_eq_true_eq]
        intro hee
        unfold PyDiGraph.hasEdge at h
        exact h (List.any_eq_true.mpr ⟨e, he, by simp [hee, hxy]⟩)
      rw [find?_append_none _ _ _ hnone, if_pos hxy]
      rw [List.find?_cons_of_pos _ (by simp [hxy.symm])]
      rfl
    · rw [if_neg hxy]
      cases hfd : g.edges.find? (fun e => decide (e.1 = (x, y))) with
      | some e => rw [find?_append_some _ _ _ hfd]
      | none =>
        rw [find?_append_none _ _ _ hfd]
        rw [List.find?_cons_of_neg _ (by
          simp only [decide_eq_true_eq]
          exact fun hc => hxy hc.symm)]
        rfl

/-- The edge-insertion fold keeps, per ordered pair, the connection datum of
the last matching connection in the input list. -/
lemma edgeData_edgesFold (cs : List Connection) (u v : String) :
    ∀ g : PyDiGraph,
    (cs.foldl (fun g c => g.addEdge c.from_id c.to_id c) g).edgeData u v
      = ((cs.filter (fun c => c.from_id = u ∧ c.to_id = v)).getLast?).or
          (g.edgeData u v) := by
  induction cs with
  | nil => intro g; simp
  | cons c rest ih =>
    intro g
    rw [List.foldl_cons, ih, edgeData_addEdge]
    by_cases hc : c.from_id = u ∧ c.to_id = v
    · rw [if_pos (by simp [Prod.ext_iff, hc.1.symm, hc.2.symm]),
        List.filter_cons_of_pos (by simp [hc.1, hc.2]),
        getLast?_cons_or, Option.or_assoc, Option.or_some]
    · rw [if_neg (by
        simp only [Prod.mk.injEq]
        intro hcon
        exact hc ⟨hcon.1.symm, hcon.2.symm⟩),
        List.filter_cons_of_neg (by simp only [decide_eq_true_eq]; exact hc)]

/-- C2 counterexample: with two distinct parallel connections `a → b`, the
subgraph over both endpoints returns only the second connection — the
`DiGraph` keeps one edge per ordered pair, so the claim that both distinct
parallel connections are kept (multi-edge semantics) fails. -/
theorem C2_counterexample_parallel_edges_collapse :
    ((mkLineageGraph
        [⟨"a", "A", "unknown", "unknown", []⟩, ⟨"b", "B", "unknown", "unknown", []⟩]
        [⟨"a", "b", "select_from"⟩, ⟨"a", "b", "connected_to"⟩]).get_subgraph
        ["a", "b"] .both none).map Prod.snd
      = some [⟨"a", "b", "connected_to"⟩]
    ∧ (⟨"a", "b", "select_from"⟩ : Connection) ≠ ⟨"a", "b", "connected_to"⟩ := by
  constructor
  · decide
  · decide

/-- C2 (amended): the graph keeps at most one directed edge per ordered
`(from_id, to_id)` pair; when several connections share the pair, the last
one in the input list silently wins, and only that `Connection` value can be
returned by subgraph extraction. -/
theorem C2_parallel_connections_last_one_wins (ns : List Node)
    (cs : List Connection) (u v : String) :
    (mkLineageGraph ns cs).graph.edgeData u v
      = (cs.filter (fun c => c.from_id = u ∧ c.to_id = v)).getLast? := by
  show (buildGraph ns cs).edgeData u v = _
  unfold buildGraph
  simp only []
  rw [edgeData_edgesFold]
  have : (ns.foldl (fun g n => g.addNodeAttr n.id n)
      (⟨[], []⟩ : PyDiGraph)).edgeData u v = none := by
    unfold PyDiGraph.edgeData
    rw [edges_nodesFold]
    rfl
  rw [this, Option.or_none]

lemma mapM_option_some {α β : Type} (f : α → Option β) :
    ∀ l : List α, (∀ a ∈ l, ∃ b, f a = some b) →
    ∃ bs, l.mapM f = some bs ∧ ∀ b ∈ bs, ∃ a ∈ l, f a = some b := by
  intro l
  induction l with
  | nil => intro _; exact ⟨[], rfl, by simp⟩
  | cons a t ih =>
    intro h
    obtain ⟨b, hb⟩ := h a (by simp)
    obtain ⟨bs, hbs, hmem⟩ := ih (fun x hx => h x (List.mem_cons_of_mem _ hx))
    refine ⟨b :: bs, ?_, ?_⟩
    · rw [List.mapM_cons, hb, hbs]
      rfl
    · intro x hx
      rcases List.mem_cons.mp hx with rfl | hx
      · exact ⟨a, by simp, hb⟩
      · obtain ⟨a', ha', hfa'⟩ := hmem x hx
        exact ⟨a', List.mem_cons_of_mem _ ha', hfa'⟩

lemma getLast?_mem_of_eq {α : Type} {l : List α} {x : α}
    (h : l.getLast? = some x) : x ∈ l := by
  induction l with
  | nil => cases h
  | cons a t ih =>
    rw [getLast?_cons_or] at h
    cases ht : t.getLast? with
    | some y =>
      rw [ht, Option.or_some] at h
      cases h
      exact List.mem_cons_of_mem _ (ih ht)
    | none =>
      rw [ht, Option.none_or] at h
      cases h
      exact List.mem_cons_self _ _

lemma getLast?_isSome_of_ne_nil {α : Type} {l : List α} (h : l ≠ []) :
    ∃ x, l.getLast? = some x := by
  induction l with
  | nil => exact absurd rfl h
  | cons a t ih =>
    rw [getLast?_cons_or]
    cases ht : t.getLast? with
    | some y => exact ⟨y, rfl⟩
    | none => exact ⟨a, rfl⟩

lemma mem_vertexIds_addNodeAttr (g : PyDiGraph) (k : String) (v : Node)
    (x : String) (hx : x ∈ (g.addNodeAttr k v).vertexIds) :
    x ∈ g.vertexIds ∨ x = k := by
  unfold PyDiGraph.addNodeAttr at hx
  by_cases hk : k ∈ g.vertexIds
  · rw [if_pos hk] at hx
    unfold PyDiGraph.vertexIds at hx ⊢
    simp only [List.map_map, List.mem_map] at hx
    obtain ⟨p, hp, hfx⟩ := hx
    by_cases hpk : p.1 = k
    · simp only [Function.comp, hpk, if_pos] at hfx
      exact Or.inr hfx.symm
    · simp only [Function.comp, hpk, if_neg, not_false_iff] at hfx
      exact Or.inl (List.mem_map.mpr ⟨p, hp, hfx⟩)
  · rw [if_neg hk] at hx
    unfold PyDiGraph.vertexIds at hx ⊢
    rw [List.map_append, List.mem_append] at hx
    rcases hx with hx | hx
    · exact Or.inl hx
    · simp at hx
      exact Or.inr hx

lemma mem_vertexIds_addVertexIfAbsent (g : PyDiGraph) (k x : String)
    (hx : x ∈ (g.addVertexIfAbsent k).vertexIds) :
    x ∈ g.vertexIds ∨ x = k := by
  unfold PyDiGraph.addVertexIfAbsent at hx
  by_cases hk : k ∈ g.vertexIds
  · rw [if_pos hk] at hx
    exact Or.inl hx
  · rw [if_neg hk] at hx
    unfold PyDiGraph.vertexIds at hx ⊢
    rw [List.map_append, List.mem_append] at hx
    rcases hx with hx | hx
    · exact Or.inl hx
    · simp at hx
      exact Or.inr hx

lemma mem_vertexIds_addEdge (g : PyDiGraph) (u v : String) (c : Connection)
    (x : String) (hx : x ∈ (g.addEdge u v c).vertexIds) :
    x ∈ g.vertexIds ∨ x = u ∨ x = v := by
  have hverts : (g.addEdge u v c).verts
      = ((g.addVertexIfAbsent u).addVertexIfAbsent v).verts := by
    unfold PyDiGraph.addEdge
    simp only []
    split <;> rfl
  have hx2 : x ∈ ((g.addVertexIfAbsent u).addVertexIfAbsent v).vertexIds := by
    unfold PyDiGraph.vertexIds at hx ⊢
    rw [hverts] at hx
    exact hx
  rcases mem_vertexIds_addVertexIfAbsent _ v x hx2 with hx3 | rfl
  · rcases mem_vertexIds_addVertexIfAbsent _ u x hx3 with hx4 | rfl
    · exact Or.inl hx4
    · exact Or.inr (Or.inl rfl)
  · exact Or.inr (Or.inr rfl)

/-- Every vertex of the built graph is either a declared node id or an
endpoint of some connection. -/
lemma mem_vertexIds_buildGraph (ns : List Node) (cs : List Connection)
    (x : String) (hx : x ∈ (buildGraph ns cs).vertexIds) :
    x ∈ ns.map Node.id ∨ ∃ c ∈ cs, x = c.from_id ∨ x = c.to_id := by
  unfold buildGraph at hx
  simp only [] at hx
  have hstage1 : ∀ (l : List Node) (g0 : PyDiGraph),
      ∀ y ∈ (l.foldl (fun g n => g.addNodeAttr n.id n) g0).vertexIds,
      y ∈ g0.vertexIds ∨ y ∈ l.map Node.id := by
    intro l
    induction l with
    | nil => intro g0 y hy; exact Or.inl hy
    | cons n rest ih =>
      intro g0 y hy
      rcases ih _ y hy with hy1 | hy1
      · rcases mem_vertexIds_addNodeAttr g0 n.id n y hy1 with hy2 | rfl
        · exact Or.inl hy2
        · exact Or.inr (by simp)
      · exact Or.inr (by simp [hy1])
  have hstage2 : ∀ (l : List Connection) (g0 : PyDiGraph),
      ∀ y ∈ (l.foldl (fun g c => g.addEdge c.from_id c.to_id c) g0).vertexIds,
      y ∈ g0.vertexIds ∨ ∃ c ∈ l, y = c.from_id ∨ y = c.to_id := by
    intro l
    induction l with
    | nil => intro g0 y hy; exact Or.inl hy
    | cons c rest ih =>
      intro g0 y hy
      rcases ih _ y hy with hy1 | hy1
      · rcases mem_vertexIds_addEdge g0 c.from_id c.to_id c y hy1 with hy2 | hy2
        · exact Or.inl hy2
        · exact Or.inr ⟨c, by simp, hy2⟩
      · obtain ⟨c', hc', hy2⟩ := hy1
        exact Or.inr ⟨c', List.mem_cons_of_mem _ hc', hy2⟩
  rcases hstage2 cs _ x hx with hx1 | hx1
  · rcases hstage1 ns _ x hx1 with hx2 | hx2
    · cases hx2
    · exact Or.inl hx2
  · exact Or.inr hx1

/-- Values stored in the `self.nodes` dict sit under their own id. -/
lemma dictGet_mk_id (ns : List Node) (cs : List Connection) {key : String}
    {nd : Node} (h : dictGet (mkLineageGraph ns cs).nodes key = some nd) :
    nd.id = key := by
  have heq : dictGet (mkLineageGraph ns cs).nodes key
      = (ns.filter (fun n => n.id = key)).getLast? := by
    show dictGet (ns.foldl (fun d n => dictInsert d n.id n) []) key = _
    rw [foldl_dictInsert_get]
    simp [dictGet]
  rw [heq] at h
  have hmem := getLast?_mem_of_eq h
  have := List.mem_filter.mp hmem
  simpa using this.2

/-- A declared id always resolves in the `self.nodes` dict. -/
lemma dictGet_mk_exists (ns : List Node) (cs : List Connection) {x : String}
    (hx : x ∈ ns.map Node.id) :
    ∃ nd, dictGet (mkLineageGraph ns cs).nodes x = some nd := by
  have heq : dictGet (mkLineageGraph ns cs).nodes x
      = (ns.filter (fun n => n.id = x)).getLast? := by
    show dictGet (ns.foldl (fun d n => dictInsert d n.id n) []) x = _
    rw [foldl_dictInsert_get]
    simp [dictGet]
  rw [heq]
  obtain ⟨n, hn, hnid⟩ := List.mem_map.mp hx
  apply getLast?_isSome_of_ne_nil
  intro hcon
  have : n ∈ ns.filter (fun n => n.id = x) :=
    List.mem_filter.mpr ⟨hn, by simp [hnid]⟩
  rw [hcon] at this
  cases this

/-- When every graph vertex resolves in the dict, `extractSubgraph` returns
normally, with only declared `Node` payloads. -/
lemma extractSubgraph_total (ns : List Node) (cs : List Connection)
    (hv : ∀ x ∈ (mkLineageGraph ns cs).graph.vertexIds,
      ∃ nd, dictGet (mkLineageGraph ns cs).nodes x = some nd)
    (selected : Finset String) :
    ∃ nodesOut connsOut,
      (mkLineageGraph ns cs).extractSubgraph selected = some (nodesOut, connsOut)
      ∧ ∀ nd ∈ nodesOut,
          dictGet (mkLineageGraph ns cs).nodes nd.id = some nd := by
  unfold LineageGraph.extractSubgraph
  simp only []
  have hall : ∀ p ∈ (mkLineageGraph ns cs).graph.verts.filter
      (fun p => p.1 ∈ selected),
      ∃ b, dictGet (mkLineageGraph ns cs).nodes p.1 = some b := by
    intro p hp
    apply hv
    unfold PyDiGraph.vertexIds
    exact List.mem_map.mpr ⟨p, (List.mem_filter.mp hp).1, rfl⟩
  obtain ⟨bs, hbs, hmem⟩ := mapM_option_some _ _ hall
  rw [hbs]
  refine ⟨bs, _, rfl, ?_⟩
  intro nd hnd
  obtain ⟨p, _, hfp⟩ := hmem nd hnd
  rw [dictGet_mk_id ns cs hfp]
  exact hfp

/-- C1 counterexample: on nodes `[a]` with the dangling connection
`ghost → a`, both subgraph extractions raise a `KeyError` (modelled `none`):
the traversal sweeps the implicitly created vertex `ghost` into the
selection, and `self.nodes["ghost"]` has no declared Node payload. -/
theorem C1_counterexample_dangling_edge_raises :
    (mkLineageGraph [⟨"a", "A", "unknown", "unknown", []⟩]
        [⟨"ghost", "a", "select_from"⟩]).get_subgraph ["a"] .both none = none
    ∧ (mkLineageGraph [⟨"a", "A", "unknown", "unknown", []⟩]
        [⟨"ghost", "a", "select_from"⟩]).get_direct_subgraph ["a"] = none := by
  constructor
  · decide
  · decide

/-- C1 (amended): the set queries are total and treat absent ids as not
present, but the subgraph extractions survive dangling edges only as long as
no dangling endpoint is swept into the induced subgraph: whenever every
connection endpoint is a declared node id, `get_subgraph` and
`get_direct_subgraph` return normally and their Node values are exactly
declared payloads (each node returned is the dict entry for its own id);
with a dangling endpoint selected they raise `KeyError` instead. -/
theorem C1_subgraph_requires_declared_payloads (ns : List Node)
    (cs : List Connection) (F : List String) (dir : FilterDirection)
    (md : Option Nat)
    (h : ∀ c ∈ cs, c.from_id ∈ ns.map Node.id ∧ c.to_id ∈ ns.map Node.id) :
    (∃ nodesOut connsOut,
      (mkLineageGraph ns cs).get_subgraph F dir md = some (nodesOut, connsOut)
      ∧ ∀ nd ∈ nodesOut,
          dictGet (mkLineageGraph ns cs).nodes nd.id = some nd)
    ∧ (∃ nodesOut connsOut,
      (mkLineageGraph ns cs).get_direct_subgraph F = some (nodesOut, connsOut)
      ∧ ∀ nd ∈ nodesOut,
          dictGet (mkLineageGraph ns cs).nodes nd.id = some nd) := by
  have hv : ∀ x ∈ (mkLineageGraph ns cs).graph.vertexIds,
      ∃ nd, dictGet (mkLineageGraph ns cs).nodes x = some nd := by
    intro x hx
    rcases mem_vertexIds_buildGraph ns cs x hx with hx1 | ⟨c, hc, hx2⟩
    · exact dictGet_mk_exists ns cs hx1
    · rcases hx2 with rfl | rfl
      · exact dictGet_mk_exists ns cs (h c hc).1
      · exact dictGet_mk_exists ns cs (h c hc).2
  exact ⟨extractSubgraph_total ns cs hv _, extractSubgraph_total ns cs hv _⟩

/-- C1 witness: on the dangling-free graph `a → b`, both extractions return
normally. -/
theorem C1_subgraph_requires_declared_payloads_witness :
    ((mkLineageGraph
        [⟨"a", "A", "unknown", "unknown", []⟩, ⟨"b", "B", "unknown", "unknown", []⟩]
        [⟨"a", "b", "select_from"⟩]).get_subgraph ["a"] .both none).isSome = true
    ∧ ((mkLineageGraph
        [⟨"a", "A", "unknown", "unknown", []⟩, ⟨"b", "B", "unknown", "unknown", []⟩]
        [⟨"a", "b", "select_from"⟩]).get_direct_subgraph ["a"]).isSome = true := by
  obtain ⟨⟨no1, co1, h1, _⟩, ⟨no2, co2, h2, _⟩⟩ :=
    C1_subgraph_requires_declared_payloads
      [⟨"a", "A", "unknown", "unknown", []⟩, ⟨"b", "B", "unknown", "unknown", []⟩]
      [⟨"a", "b", "select_from"⟩] ["a"] .both none (by decide)
  rw [h1, h2]
  exact ⟨rfl, rfl⟩

/-- Model of `networkx.all_simple_paths(G, current → t)`: depth-first
enumeration of vertex-disjoint paths, guarded by the visited list (which
contains the path so far, `current` included).  Enumeration order is not
load-bearing for the engine, which treats the result as a collection. -/
def simplePathsAux (g : PyDiGraph) (t : String) (current : String)
    (visited : List String) : List (List String) :=
  if current = t then [[current]]
  else
    ((g.successors current).filter (fun p => p ∉ visited)).attach.flatMap
      (fun pp => (simplePathsAux g t pp.1 (visited ++ [pp.1])).map
        (fun path => current :: path))
termination_by (g.vertexFinset \ visited.toFinset).card
decreasing_by
  have hp := pp.2
  rw [List.mem_filter] at hp
  obtain ⟨hmem, hnv⟩ := hp
  have hnv2 : pp.1 ∉ visited := by simpa using hnv
  apply Finset.card_lt_card
  rw [Finset.ssubset_def]
  constructor
  · apply Finset.sdiff_subset_sdiff (le_refl _)
    intro y hy
    rw [List.toFinset_append]
    exact Finset.mem_union_left _ hy
  · intro hc
    have hpv : pp.1 ∈ g.vertexFinset \ visited.toFinset := by
      rw [Finset.mem_sdiff]
      refine ⟨?_, by simpa using hnv2⟩
      unfold PyDiGraph.successors at hmem
      exact List.mem_toFinset.mpr (List.mem_filter.mp hmem).1
    have h2 := hc hpv
    rw [Finset.mem_sdiff] at h2
    apply h2.2
    rw [List.toFinset_append]
    exact Finset.mem_union_right _ (by simp)

/-- `get_all_paths` (`src/lineage_graph.py`, lines 245-262). -/
def LineageGraph.get_all_paths (lg : LineageGraph)
    (from_node_id to_node_id : String) : List (List String) :=
  if from_node_id ∉ lg.graph.vertexIds ∨ to_node_id ∉ lg.graph.vertexIds then []
  else simplePathsAux lg.graph to_node_id from_node_id [from_node_id]

lemma iterate_stepSet_mono (g : PyDiGraph) (fwd : Bool) (k : Nat)
    {R S : Finset String} (h : R ⊆ S) :
    (stepSet g fwd)^[k] R ⊆ (stepSet g fwd)^[k] S := by
  induction k generalizing R S with
  | zero => exact h
  | succ k ih =>
    rw [Function.iterate_succ_apply, Function.iterate_succ_apply]
    exact ih (stepSet_mono g fwd h)

/-- Reachability within `k` hops of a neighbor is reachability within
`k + 1` hops of the vertex. -/
lemma stepN_neighbor_subset (g : PyDiGraph) (fwd : Bool) {p current : String}
    (hp : p ∈ nbrFinset g fwd current) (k : Nat) :
    stepN g fwd p k ⊆ stepN g fwd current (k + 1) := by
  unfold stepN
  rw [Function.iterate_succ_apply]
  apply iterate_stepSet_mono
  intro x hx
  rw [Finset.mem_singleton] at hx
  subst hx
  rw [stepSet_eq_nbrUnion]
  apply Finset.mem_union_right
  unfold nbrUnion
  rw [Finset.mem_biUnion]
  exact ⟨current, Finset.mem_singleton_self _, hp⟩

/-- When the target is not forward-reachable from `current`, the simple-path
enumeration is empty. -/
lemma simplePathsAux_eq_nil (g : PyDiGraph) (t : String) :
    ∀ (n : Nat) (current : String) (visited : List String),
    (g.vertexFinset \ visited.toFinset).card = n →
    t ∉ stepN g true current (g.verts.length + 1) →
    simplePathsAux g t current visited = [] := by
  intro n
  induction n using Nat.strong_induction_on with
  | _ n ih =>
    intro current visited hn ht
    have hct : ¬ current = t := by
      intro hc
      exact ht (hc ▸ mem_stepN_self g true current _)
    rw [simplePathsAux, if_neg hct]
    apply List.flatMap_eq_nil_iff.mpr
    intro pp hpp
    rw [List.map_eq_nil_iff]
    have hp := pp.2
    rw [List.mem_filter] at hp
    obtain ⟨hmem, hnv⟩ := hp
    have hnv2 : pp.1 ∉ visited := by simpa using hnv
    have hvert : pp.1 ∈ g.vertexFinset := by
      unfold PyDiGraph.successors at hmem
      exact List.mem_toFinset.mpr (List.mem_filter.mp hmem).1
    have hcard : (g.vertexFinset \ (visited ++ [pp.1]).toFinset).card < n := by
      rw [← hn]
      apply Finset.card_lt_card
      rw [Finset.ssubset_def]
      constructor
      · apply Finset.sdiff_subset_sdiff (le_refl _)
        intro y hy
        rw [List.toFinset_append]
        exact Finset.mem_union_left _ hy
      · intro hc
        have hpv : pp.1 ∈ g.vertexFinset \ visited.toFinset := by
          rw [Finset.mem_sdiff]
          exact ⟨hvert, by simpa using hnv2⟩
        have h2 := hc hpv
        rw [Finset.mem_sdiff] at h2
        apply h2.2
        rw [List.toFinset_append]
        exact Finset.mem_union_right _ (by simp)
    apply ih _ hcard pp.1 (visited ++ [pp.1]) rfl
    intro hreach
    apply ht
    have hnbr : pp.1 ∈ nbrFinset g true current := by
      unfold nbrFinset PyDiGraph.neighborList
      simp only [if_pos rfl]
      exact List.mem_toFinset.mpr hmem
    exact stepN_le_closure g true current (g.verts.length + 2)
      (stepN_neighbor_subset g true hnbr (g.verts.length + 1) hreach)

/-- C9: queries on an id absent from the graph return empty collections —
`get_upstream_nodes`, `get_downstream_nodes`, `get_direct_connections`
return the empty set, and `get_all_paths` returns the empty list when
either endpoint is absent; `get_all_paths` also returns the empty list when
no directed path exists from the source to the target (target outside the
forward-reachability closure of the source).  Nothing raises. -/
theorem C9_absent_and_no_path_empty_results (ns : List Node)
    (cs : List Connection) (x y a b : String) (md : Option Nat)
    (hx : x ∉ (mkLineageGraph ns cs).graph.vertexIds)
    (hnp : b ∉ stepN (mkLineageGraph ns cs).graph true a
      ((mkLineageGraph ns cs).graph.verts.length + 1)) :
    (mkLineageGraph ns cs).get_upstream_nodes x md = ∅
    ∧ (mkLineageGraph ns cs).get_downstream_nodes x md = ∅
    ∧ (mkLineageGraph ns cs).get_direct_connections x = ∅
    ∧ (mkLineageGraph ns cs).get_all_paths x y = []
    ∧ (mkLineageGraph ns cs).get_all_paths y x = []
    ∧ (mkLineageGraph ns cs).get_all_paths a b = [] := by
  refine ⟨?_, ?_, ?_, ?_, ?_, ?_⟩
  · unfold LineageGraph.get_upstream_nodes
    rw [if_pos hx]
  · unfold LineageGraph.get_downstream_nodes
    rw [if_pos hx]
  · unfold LineageGraph.get_direct_connections
    rw [if_pos hx]
  · unfold LineageGraph.get_all_paths
    rw [if_pos (Or.inl hx)]
  · unfold LineageGraph.get_all_paths
    rw [if_pos (Or.inr hx)]
  · unfold LineageGraph.get_all_paths
    by_cases hab : a ∉ (mkLineageGraph ns cs).graph.vertexIds
        ∨ b ∉ (mkLineageGraph ns cs).graph.vertexIds
    · rw [if_pos hab]
    · rw [if_neg hab]
      exact simplePathsAux_eq_nil (mkLineageGraph ns cs).graph b _ a [a] rfl hnp

/-- C9 witness: on the graph `a → b`, the id `zzz` is absent and all its
queries are empty, and there is no path from `b` back to `a`, so
`get_all_paths b a = []`. -/
theorem C9_absent_and_no_path_empty_results_witness :
    ("zzz" ∉ (mkLineageGraph
        [⟨"a", "A", "unknown", "unknown", []⟩, ⟨"b", "B", "unknown", "unknown", []⟩]
        [⟨"a", "b", "select_from"⟩]).graph.vertexIds)
    ∧ ("a" ∉ stepN (mkLineageGraph
        [⟨"a", "A", "unknown", "unknown", []⟩, ⟨"b", "B", "unknown", "unknown", []⟩]
        [⟨"a", "b", "select_from"⟩]).graph true "b"
        ((mkLineageGraph
          [⟨"a", "A", "unknown", "unknown", []⟩, ⟨"b", "B", "unknown", "unknown", []⟩]
          [⟨"a", "b", "select_from"⟩]).graph.verts.length + 1))
    ∧ (mkLineageGraph
        [⟨"a", "A", "unknown", "unknown", []⟩, ⟨"b", "B", "unknown", "unknown", []⟩]
        [⟨"a", "b", "select_from"⟩]).get_upstream_nodes "zzz" (some 2) = ∅
    ∧ (mkLineageGraph
        [⟨"a", "A", "unknown", "unknown", []⟩, ⟨"b", "B", "unknown", "unknown", []⟩]
        [⟨"a", "b", "select_from"⟩]).get_all_paths "b" "a" = [] :=
  ⟨by decide, by decide,
   (C9_absent_and_no_path_empty_results _ _ "zzz" "a" "b" "a" (some 2)
     (by decide) (by decide)).1,
   (C9_absent_and_no_path_empty_results _ _ "zzz" "a" "b" "a" (some 2)
     (by decide) (by decide)).2.2.2.2.2⟩

end Lineage
